import Mathlib

/-!
Shallow embedding of `find-locals.py` (the Localizer symbol cross-reference
engine) together with proofs checking the natural-language specification's
claims against it.

The embedding keeps the source's structure and names:

* `Symbol`, `Symtab` with `get_or_create`, `add_import`, `add_export` embed
  the classes of the script; Python `set`s are modelled as duplicate-free
  lists in insertion order (`setInsert`), which preserves membership,
  cardinality and `sorted()` exactly.  The nondeterministic `next(iter(set))`
  used by `Symbol.first_origin` is modelled by an explicit choice function
  `pick : List String → String` carried in `AnalyzerConfig`.
* `analyze_reports` embeds the analysis routine.  File/JSON ingestion is
  modelled by taking the already-parsed `Report` list (parsing is I/O).
  The external `c++filt` subprocess is modelled by `DemanglerBehavior`:
  either the tool is absent (in the source, `subprocess.Popen` then raises
  `FileNotFoundError`, which is uncaught and aborts the run — modelled as
  `Except.error RunError.fileNotFound`) or it runs, producing an exit code
  (which the source discards) and a stdout string.
* Printed output is modelled losslessly by structured values: `ReportLine`
  for stdout lines and `DupWarning` for the duplicate-definition warnings
  that the source writes to stderr.
* `find_headers` / `index_headers` embed the header scanning.  The
  filesystem walk is modelled by an explicit list of `(path, contents)`
  pairs; `splitextExt` embeds `os.path.splitext`'s extension rule, and
  `pyFindall` embeds `re.findall` of the exact pattern
  `r'\b([a-z_][a-z_0-9]*)\s*[\[(;]|#\s*define\s.*\b([a-z_][a-z_0-9]*)\b'`
  compiled with `re.I` (so the character classes are case-insensitive),
  as a specialized left-to-right, non-overlapping scanner.
-/

namespace Localizer

/-! ## Generic character/string helpers (Python semantics) -/

/-- Lexicographic comparison of char lists by code point; this is exactly
Python's `<` on strings restricted to the characters involved. -/
def charListLt : List Char → List Char → Bool
  | [], [] => false
  | [], _ :: _ => true
  | _ :: _, [] => false
  | a :: as, b :: bs =>
    if a < b then true else if b < a then false else charListLt as bs

/-- Total order used for `sorted()` on strings: `a ≤ b` iff not `b < a`. -/
def strLe (a b : String) : Bool := !charListLt b.data a.data

/-- Ordering of `(origin, name)` pairs, as Python compares tuples of strings. -/
def pairLe (a b : String × String) : Bool :=
  charListLt a.1.data b.1.data ||
    (a.1.data == b.1.data && !charListLt b.2.data a.2.data)

/-- Insert into a list sorted by `le` (helper of `sortLe`). -/
def insertLe {α : Type} (le : α → α → Bool) (x : α) : List α → List α
  | [] => [x]
  | y :: ys => if le x y then x :: y :: ys else y :: insertLe le x ys

/-- Insertion sort; models Python's `sorted` (the claims only depend on the
output being ordered and a permutation of the input). -/
def sortLe {α : Type} (le : α → α → Bool) : List α → List α
  | [] => []
  | x :: xs => insertLe le x (sortLe le xs)

/-- Model of Python's `sorted` on a collection of strings. -/
def sortStrings (l : List String) : List String := sortLe strLe l

/-- Model of a Python `set` of strings as a duplicate-free list in insertion
order: membership, size and `sorted()` agree with the set. -/
def setInsert (x : String) (l : List String) : List String :=
  if x ∈ l then l else l ++ [x]

/-- Model of `s.startswith(pre)`. -/
def pyStartswith (s pre : String) : Bool := pre.data.isPrefixOf s.data

/-- Last index of character `c`, i.e. Python `s.rfind(c)` (`none` for `-1`). -/
def rfindChar (c : Char) : List Char → Option Nat
  | [] => none
  | x :: xs =>
    match rfindChar c xs with
    | some i => some (i + 1)
    | none => if x == c then some 0 else none

/-- Last index of the two-character substring `"::"`, i.e. Python
`s.rfind('::')` (`none` for `-1`). -/
def rfindScope : List Char → Option Nat
  | [] => none
  | [_] => none
  | a :: b :: rest =>
    match rfindScope (b :: rest) with
    | some i => some (i + 1)
    | none => if a == ':' && b == ':' then some 0 else none

/-- Model of `out.rstrip("\n")`: remove all trailing newline characters. -/
def rstripNewlines (s : String) : String :=
  String.mk ((s.data.reverse.dropWhile (· == '\n')).reverse)

/-- Model of Python `str.split("\n")` on char lists: `""` splits to `[""]`,
and every newline separates two (possibly empty) fields. -/
def splitLines : List Char → List (List Char)
  | [] => [[]]
  | c :: cs =>
    let r := splitLines cs
    if c == '\n' then [] :: r
    else
      match r with
      | [] => [[c]]
      | l :: ls => (c :: l) :: ls

/-- String-level wrapper of `splitLines`. -/
def splitLinesStr (s : String) : List String := (splitLines s.data).map String.mk

/-! ## The name-normalization stem (lines 139-147 of the source) -/

/-- The stem computation applied to each demangled name in
`analyze_reports`: `j = dn.rfind('(') ; dn = dn[:j]` (when found) followed by
`j = dn.rfind('::') ; dn = dn[j+2:]` (when found). -/
def stemChars (cs : List Char) : List Char :=
  let cs1 :=
    match rfindChar '(' cs with
    | some j => cs.take j
    | none => cs
  match rfindScope cs1 with
  | some j => cs1.drop (j + 2)
  | none => cs1

/-- The canonical stem exactly as the source computes it. -/
def stem (s : String) : String := String.mk (stemChars s.data)

/-- Paren scan used to formalize the spec's phrase "first unmatched `(`":
walk the string keeping a stack of indices of `(` not yet closed by a later
`)`; the surviving bottom-of-stack index is the first unmatched `(`. -/
def parenScan : List Char → Nat → List Nat → List Nat
  | [], _, stack => stack
  | c :: cs, i, stack =>
    if c == '(' then parenScan cs (i + 1) (i :: stack)
    else if c == ')' then parenScan cs (i + 1) stack.tail
    else parenScan cs (i + 1) stack

/-- Index of the first `(` that is never matched by a closing `)`. -/
def firstUnmatchedParen (cs : List Char) : Option Nat :=
  (parenScan cs 0 []).getLast?

/-- Stem computation written from the specification's words (a second
definition for refinement comparison, deliberately NOT from the source):
"strip the text from the first unmatched `(` to the end", then "take the
text after the last scope-separator sequence". -/
def specStemChars (cs : List Char) : List Char :=
  let cs1 :=
    match firstUnmatchedParen cs with
    | some j => cs.take j
    | none => cs
  match rfindScope cs1 with
  | some j => cs1.drop (j + 2)
  | none => cs1

/-- String-level wrapper of `specStemChars`. -/
def specStem (s : String) : String := String.mk (specStemChars s.data)

/-- Forward scan recording the index of the last `(` seen so far; an
independent formulation of "the last `(`" used to state the amended claim. -/
def lastParenFwd : List Char → Nat → Option Nat → Option Nat
  | [], _, acc => acc
  | c :: cs, i, acc => lastParenFwd cs (i + 1) (if c == '(' then some i else acc)

/-- Forward scan recording the start index of the last `"::"` seen so far. -/
def lastScopeFwd : List Char → Nat → Option Nat → Option Nat
  | a :: b :: rest, i, acc =>
    lastScopeFwd (b :: rest) (i + 1) (if a == ':' && b == ':' then some i else acc)
  | _, _, acc => acc

/-- Stem computation written from the amended claim's words: strip from the
LAST `(` (found by a forward scan, independently of `rfindChar`) to the end,
then keep the text after the last `"::"`. -/
def amendedStemChars (cs : List Char) : List Char :=
  let cs1 :=
    match lastParenFwd cs 0 none with
    | some j => cs.take j
    | none => cs
  match lastScopeFwd cs1 0 none with
  | some j => cs1.drop (j + 2)
  | none => cs1

/-- String-level wrapper of `amendedStemChars`. -/
def amendedStem (s : String) : String := String.mk (amendedStemChars s.data)

/-! ## Data model: reports, symbols, symbol table -/

/-- One `{file, name}` pair of a report record. -/
structure Entry where
  file : String
  name : String
deriving DecidableEq

/-- One parsed report (one linker invocation), with the three lists the
source reads from the JSON contents. -/
structure Report where
  exports : List Entry
  imports : List Entry
  global_exports : List Entry
deriving DecidableEq

/-- The `Symbol` class of the source.  `defs` and `uses` model the Python
sets `self.defs` / `self.uses` as duplicate-free insertion-ordered lists. -/
structure Symbol where
  name : String
  demangled_name : Option String
  defs : List String
  uses : List String
deriving DecidableEq

/-- `Symbol.has_multiple_defs`: `len(self.defs) > 1`. -/
def Symbol.has_multiple_defs (s : Symbol) : Bool := decide (1 < s.defs.length)

/-- `Symbol.is_imported`: `len(self.uses) > 0`. -/
def Symbol.is_imported (s : Symbol) : Bool := decide (0 < s.uses.length)

/-- `Symbol.is_system_symbol`: some definition origin starts with `"/usr/"`
or `"/lib/"` (the source iterates `sorted(self.defs)` and returns on the
first hit, which is `any` over the sorted list). -/
def Symbol.is_system_symbol (s : Symbol) : Bool :=
  (sortStrings s.defs).any fun origin =>
    pyStartswith origin "/usr/" || pyStartswith origin "/lib/"

/-- The `Symtab` class: `syms` is the `name → Symbol` dict (an association
list in insertion order, keys unique), `imports`/`exports` are the raw
per-name origin lists kept by `add_import`/`add_export`. -/
structure Symtab where
  syms : List (String × Symbol)
  imports : List (String × List String)
  exports : List (String × List String)
deriving DecidableEq

/-- Dict lookup on the association list (first entry with the given key). -/
def lookupSym : List (String × Symbol) → String → Option Symbol
  | [], _ => none
  | p :: ps, n => if p.1 = n then some p.2 else lookupSym ps n

/-- Update every entry with the given key in place (there is at most one). -/
def updateSym (syms : List (String × Symbol)) (n : String) (f : Symbol → Symbol) :
    List (String × Symbol) :=
  syms.map fun p => if p.1 = n then (p.1, f p.2) else p

/-- Model of `self.imports.setdefault(name, []).append(origin)`. -/
def appendAt : List (String × List String) → String → String → List (String × List String)
  | [], name, v => [(name, [v])]
  | p :: ps, name, v =>
    if p.1 = name then (p.1, p.2 ++ [v]) :: ps else p :: appendAt ps name v

/-- `Symtab.empty`: `not self.syms`. -/
def Symtab.empty (st : Symtab) : Bool := st.syms.isEmpty

/-- `Symtab.get_or_create`: return the table, creating a fresh
`Symbol(name)` entry when the name is not yet present. -/
def Symtab.get_or_create (st : Symtab) (name : String) : Symtab :=
  if (lookupSym st.syms name).isSome then st
  else { st with syms := st.syms ++ [(name, ⟨name, none, [], []⟩)] }

/-- `Symtab.add_import`: `sym.uses.add(origin)` plus the raw `imports` log. -/
def Symtab.add_import (st : Symtab) (origin name : String) : Symtab :=
  let st1 := st.get_or_create name
  { st1 with
      syms := updateSym st1.syms name fun s => { s with uses := setInsert origin s.uses }
      imports := appendAt st1.imports name origin }

/-- `Symtab.add_export`: `sym.defs.add(origin)` plus the raw `exports` log. -/
def Symtab.add_export (st : Symtab) (origin name : String) : Symtab :=
  let st1 := st.get_or_create name
  { st1 with
      syms := updateSym st1.syms name fun s => { s with defs := setInsert origin s.defs }
      exports := appendAt st1.exports name origin }

/-! ## Ingestion (lines 117-130 of the source) -/

/-- Fold `add_export` over an export list. -/
def addExports (st : Symtab) (es : List Entry) : Symtab :=
  es.foldl (fun st e => st.add_export e.file e.name) st

/-- Fold `add_import` over an import (or global-export) list. -/
def addImports (st : Symtab) (es : List Entry) : Symtab :=
  es.foldl (fun st e => st.add_import e.file e.name) st

/-- Ingest one report: exports, then imports, then global-exports, the
latter fed to `add_import` ("any symbol exported from shlib has potential
outside uses"). -/
def ingestReport (st : Symtab) (r : Report) : Symtab :=
  addImports (addImports (addExports st r.exports) r.imports) r.global_exports

/-- The fully ingested symbol table. -/
def buildSymtab (reports : List Report) : Symtab :=
  reports.foldl ingestReport ⟨[], [], []⟩

/-! ## The demangling collaborator and population of demangled names -/

/-- Behaviour of the external `c++filt` call: the binary may be absent (then
`subprocess.Popen` raises `FileNotFoundError`, uncaught in the source), or
it runs with some exit status and stdout. -/
inductive DemanglerBehavior where
  | absent
  | runs (returncode : Int) (stdout : String)

/-- The ways the modelled analysis can abort: the uncaught
`FileNotFoundError` from a missing demangler, and the uncaught `IndexError`
from `names[i]` when the demangler emits more lines than there are names. -/
inductive RunError where
  | fileNotFound
  | indexError
deriving DecidableEq

/-- Set one symbol's `demangled_name` field. -/
def Symtab.setDemangled (st : Symtab) (n : String) (d : String) : Symtab :=
  { st with syms := updateSym st.syms n fun s => { s with demangled_name := some d } }

/-- The loop `for i, demangled_name in enumerate(out.split("\n")): ...
symtab.syms[names[i]].demangled_name = stem` — pairing output lines with the
sorted names positionally; a surplus line raises `IndexError`. -/
def assignDemangled : Symtab → List String → List String → Except RunError Symtab
  | st, _, [] => .ok st
  | _, [], _ :: _ => .error .indexError
  | st, n :: ns, l :: ls => assignDemangled (st.setDemangled n (stem l)) ns ls

/-- Keys of the symbol dict, in insertion order. -/
def keysOf (syms : List (String × Symbol)) : List String := syms.map Prod.fst

/-- The symbol table as it stands when classification begins: built from the
reports and, unless it is empty (the source returns before calling
`c++filt` in that case), populated with demangled stems from the
demangler's output. -/
def populatedSymtab (demangler : DemanglerBehavior) (reports : List Report) :
    Except RunError Symtab :=
  let st := buildSymtab reports
  if st.empty then .ok st
  else
    match demangler with
    | .absent => .error .fileNotFound
    | .runs _ out =>
      assignDemangled st (sortStrings (keysOf st.syms)) (splitLinesStr (rstripNewlines out))

/-! ## Classification and reporting (lines 149-183 of the source) -/

/-- One duplicate-definition warning, as written to stderr: the symbol name
and the sorted list of its definition origins. -/
structure DupWarning where
  name : String
  origins : List String
deriving DecidableEq

/-- One stdout line of the final report, modelled structurally:
the "Global symbols not imported by any file:" banner, one
"  {name} ({origin})" candidate line, or the
"No violations found (in {n} linker invocations)" success line. -/
inductive ReportLine where
  | header
  | candidate (name origin : String)
  | noViolations (numReports : Nat)
deriving DecidableEq

/-- Everything the analysis prints: stderr warnings and stdout lines. -/
structure AnalysisOutput where
  warnings : List DupWarning
  lines : List ReportLine
deriving DecidableEq

/-- Test `name[0] == '_'` of the source ("skip compiler-generated
symbols"); linker symbol names are nonempty, on which `head?` agrees with
Python's `name[0]`. -/
def firstCharUnderscore (n : String) : Bool := n.data.head? == some '_'

/-- Test `sym.demangled_name in header_syms`; an unset `demangled_name`
(Python `None`) is never in a set of strings. -/
def demangledInHeaders (sym : Symbol) (header_syms : List String) : Bool :=
  match sym.demangled_name with
  | some d => header_syms.any (fun h => h == d)
  | none => false

/-- The `if VERBOSE:` warning pass: iterate `sorted(symtab.syms.items())`,
skip symbols without multiple defs, names starting with `'_'` and `main`,
and emit the name with its sorted definition origins. -/
def dupWarnings (verbose : Bool) (st : Symtab) : List DupWarning :=
  if verbose then
    (sortLe (fun a b => strLe a.1 b.1) st.syms).filterMap fun p =>
      if p.2.has_multiple_defs then
        if firstCharUnderscore p.1 then none
        else if p.1 = "main" then none
        else some ⟨p.1, sortStrings p.2.defs⟩
      else none
  else []

/-- The `bad_syms` collection loop: symbols that are not system symbols,
whose demangled name is not a header symbol, and that are not imported. -/
def candidateSyms (st : Symtab) (header_syms : List String) : List Symbol :=
  (st.syms.map Prod.snd).filter fun sym =>
    !sym.is_system_symbol && !demangledInHeaders sym header_syms && !sym.is_imported

/-- The report printing: if any candidates exist, the banner followed by
`sorted((sym.first_origin(), sym.name) for sym in bad_syms)` rendered as
candidate lines; otherwise the single success line with the number of
report sources.  `pick` models `next(iter(sym.defs))` of `first_origin`. -/
def reportLines (pick : List String → String) (numReports : Nat) (st : Symtab)
    (header_syms : List String) : List ReportLine :=
  let bad := candidateSyms st header_syms
  if bad.isEmpty then [ReportLine.noViolations numReports]
  else
    ReportLine.header ::
      (sortLe pairLe (bad.map fun sym => (pick sym.defs, sym.name))).map
        fun pr => ReportLine.candidate pr.2 pr.1

/-- Run-level configuration: the `VERBOSE` global, the demangler
collaborator's behaviour, and the set-iteration choice function modelling
`next(iter(set))` in `Symbol.first_origin`. -/
structure AnalyzerConfig where
  verbose : Bool
  demangler : DemanglerBehavior
  pick : List String → String

/-- The `analyze_reports` routine: build the table (an empty table returns
silently, printing nothing), run the demangler and populate stems, then
emit warnings and the report. -/
def analyze_reports (cfg : AnalyzerConfig) (reports : List Report)
    (header_syms : List String) : Except RunError AnalysisOutput :=
  if (buildSymtab reports).empty then .ok ⟨[], []⟩
  else
    match populatedSymtab cfg.demangler reports with
    | .error e => .error e
    | .ok st =>
      .ok ⟨dupWarnings cfg.verbose st, reportLines cfg.pick reports.length st header_syms⟩

/-- Decidable equality of analysis results, used to evaluate the engine on
concrete inputs. -/
instance {ε α : Type} [DecidableEq ε] [DecidableEq α] : DecidableEq (Except ε α) := fun x y =>
  match x, y with
  | .ok a, .ok b =>
    if h : a = b then isTrue (by rw [h]) else isFalse (fun hc => h (Except.ok.inj hc))
  | .error a, .error b =>
    if h : a = b then isTrue (by rw [h]) else isFalse (fun hc => h (Except.error.inj hc))
  | .ok _, .error _ => isFalse (fun hc => Except.noConfusion hc)
  | .error _, .ok _ => isFalse (fun hc => Except.noConfusion hc)

/-- `next(iter(set))` candidate: take the first element of the insertion
order. -/
def pickFirst (l : List String) : String := l.headD ""

/-- `next(iter(set))` candidate: take the last element of the insertion
order. -/
def pickLast (l : List String) : String := l.getLastD ""

/-! ## Header scanning (`find_headers` / `index_headers`) -/

/-- Extension per `os.path.splitext`: the suffix from the last `.` of the
final path component, unless that component consists of leading dots only
up to it. -/
def splitextExt (p : String) : String :=
  let cs := p.data
  match rfindChar '.' cs with
  | none => ""
  | some d =>
    let base := match rfindChar '/' cs with | none => 0 | some s => s + 1
    if base ≤ d ∧ ((cs.drop base).take (d - base)).any (fun c => c != '.') = true then
      String.mk (cs.drop d)
    else ""

/-- The extension allow-list test `ext in ('.h', '.hpp', '.hh')`. -/
def isHeaderExt (p : String) : Bool :=
  splitextExt p == ".h" || splitextExt p == ".hpp" || splitextExt p == ".hh"

/-- `find_headers`: of all files below the roots (the `os.walk` enumeration
is modelled by an explicit `(path, contents)` list), keep those whose
`splitext` extension is `.h`, `.hpp` or `.hh`. -/
def find_headers (files : List (String × String)) : List (String × String) :=
  files.filter fun f => isHeaderExt f.1

/-- Character class `[a-z_0-9]` under `re.I` (which is also Python's ASCII
`\w`): letters of either case, digits, underscore. -/
def isWordChar (c : Char) : Bool :=
  (decide ('a' ≤ c) && decide (c ≤ 'z')) || (decide ('A' ≤ c) && decide (c ≤ 'Z')) ||
    (decide ('0' ≤ c) && decide (c ≤ '9')) || c == '_'

/-- Character class `[a-z_]` under `re.I`: letters of either case or
underscore. -/
def isIdentStart (c : Char) : Bool :=
  (decide ('a' ≤ c) && decide (c ≤ 'z')) || (decide ('A' ≤ c) && decide (c ≤ 'Z')) || c == '_'

/-- The `\s` class (ASCII part, which covers header files). -/
def isSpaceChar (c : Char) : Bool :=
  c == ' ' || c == '\t' || c == '\n' || c == '\r' || c == '\x0b' || c == '\x0c'

/-- Case-insensitive comparison of an input character against a lowercase
pattern letter, as `re.I` matches literals. -/
def charLowerEq (c p : Char) : Bool :=
  c == p || ((decide ('A' ≤ c) && decide (c ≤ 'Z')) && c.toNat + 32 == p.toNat)

/-- Match a lowercase literal keyword case-insensitively, returning the
rest of the input on success. -/
def matchKeyword : List Char → List Char → Option (List Char)
  | [], cs => some cs
  | _ :: _, [] => none
  | p :: ps, c :: cs => if charLowerEq c p then matchKeyword ps cs else none

/-- First alternative `\b([a-z_][a-z_0-9]*)\s*[\[(;]` at the current
position: the word boundary holds iff the previous character is not a word
character; the identifier is the maximal word-character run (shortening it
cannot help, since the next character would then be a word character,
failing `\s*[\[(;]`); then optional whitespace and one of `[`, `(`, `;`.
Returns the captured identifier and the input after the match. -/
def tryBranch1 (prevWord : Bool) : List Char → Option (List Char × List Char)
  | [] => none
  | c :: rest =>
    if prevWord || !isIdentStart c then none
    else
      let tok := c :: rest.takeWhile isWordChar
      let rest1 := rest.dropWhile isWordChar
      let rest2 := rest1.dropWhile isSpaceChar
      match rest2 with
      | d :: rest3 =>
        if d == '[' || d == '(' || d == ';' then some (tok, rest3) else none
      | [] => none

/-- Rightmost word token in a line whose first character is `[a-z_]` (under
`re.I`) and which starts at a word boundary; returns the token and the rest
of the line after it.  This is what the backtracking of
`.*\b([a-z_][a-z_0-9]*)\b` selects: the greedy `.*` yields the rightmost
eligible capture. -/
def findLastTokenAux : Bool → List Char → Option (List Char × List Char) →
    Option (List Char × List Char)
  | _, [], acc => acc
  | prevWord, c :: rest, acc =>
    let acc' :=
      if !prevWord && isIdentStart c then
        some (c :: rest.takeWhile isWordChar, rest.dropWhile isWordChar)
      else acc
    findLastTokenAux (isWordChar c) rest acc'

/-- Second alternative `#\s*define\s.*\b([a-z_][a-z_0-9]*)\b` at the current
position: `#`, optional whitespace, the literal `define` (case-insensitive
under `re.I`), one whitespace character, then — within the rest of the
line, since `.` does not cross newlines — the rightmost eligible token. -/
def tryBranch2 : List Char → Option (List Char × List Char)
  | [] => none
  | c :: rest =>
    if c != '#' then none
    else
      match matchKeyword ['d', 'e', 'f', 'i', 'n', 'e'] (rest.dropWhile isSpaceChar) with
      | none => none
      | some rest2 =>
        match rest2 with
        | [] => none
        | s :: rest3 =>
          if isSpaceChar s then
            let line := rest3.takeWhile (· != '\n')
            let restAfter := rest3.dropWhile (· != '\n')
            match findLastTokenAux false line none with
            | some (tok, after) => some (tok, after ++ restAfter)
            | none => none
          else none

/-- The `re.findall` scan: at each position try the first alternative, then
the second; on a match emit the capture tuple (the non-participating group
is the empty string, as Python reports it) and resume after the consumed
text; otherwise advance one character.  `fuel` bounds the number of steps
(each consumes at least one character). -/
def scanAux : Nat → Bool → List Char → List (String × String)
  | 0, _, _ => []
  | _, _, [] => []
  | fuel + 1, prevWord, c :: rest =>
    match tryBranch1 prevWord (c :: rest) with
    | some (tok, rest') => (String.mk tok, "") :: scanAux fuel false rest'
    | none =>
      match tryBranch2 (c :: rest) with
      | some (tok, rest') => ("", String.mk tok) :: scanAux fuel true rest'
      | none => scanAux fuel (isWordChar c) rest

/-- `pat.findall(contents)` for the header pattern. -/
def pyFindall (s : String) : List (String × String) :=
  scanAux (s.data.length + 1) false s.data

/-- `index_headers`: over all header files, `syms.add(first);
syms.add(second)` for every findall tuple. -/
def index_headers (headers : List (String × String)) : List String :=
  headers.foldl
    (fun syms h =>
      (pyFindall h.2).foldl (fun syms pr => setInsert pr.2 (setInsert pr.1 syms)) syms)
    []

/-- The header symbol set as the driver builds it: index the discovered
headers. -/
def headerSymbolSet (files : List (String × String)) : List String :=
  index_headers (find_headers files)

/-! ## Invariants used by the proofs -/

/-- Well-formedness of the symbol dict: keys are unique, and every symbol's
`name` field equals its key. -/
def TableWF (st : Symtab) : Prop :=
  (keysOf st.syms).Nodup ∧ ∀ p ∈ st.syms, p.2.name = p.1

/-- The uses of a name in the table (empty when absent). -/
def usesOf (st : Symtab) (n : String) : List String :=
  ((lookupSym st.syms n).map Symbol.uses).getD []

/-- Two tables agree on names, definition origins and uses for every key
(they may differ in `demangled_name` and the raw logs). -/
def SameCore (st st' : Symtab) : Prop :=
  ∀ n, match lookupSym st.syms n, lookupSym st'.syms n with
    | none, none => True
    | some s, some s' => s'.name = s.name ∧ s'.defs = s.defs ∧ s'.uses = s.uses
    | _, _ => False

/-! ## Lemmas: the lexicographic order and sorting -/

theorem charListLt_asymm : ∀ x y, charListLt x y = true → charListLt y x = false := by
  intro x
  induction x with
  | nil => intro y h; cases y <;> simp_all [charListLt]
  | cons a as ih =>
    intro y h
    cases y with
    | nil => simp [charListLt] at h
    | cons b bs =>
      simp only [charListLt] at h ⊢
      by_cases hab : a < b
      · simp [hab, lt_asymm hab]
      · by_cases hba : b < a
        · simp [hab, hba] at h
        · simp only [hab, hba, if_false] at h ⊢
          exact ih bs h

theorem charListLt_conn : ∀ x y, charListLt x y = false → charListLt y x = false → x = y := by
  intro x
  induction x with
  | nil => intro y h _; cases y <;> simp_all [charListLt]
  | cons a as ih =>
    intro y h h'
    cases y with
    | nil => simp [charListLt] at h'
    | cons b bs =>
      simp only [charListLt] at h h'
      by_cases hab : a < b
      · simp [hab] at h
      · by_cases hba : b < a
        · simp [hba, hab] at h'
        · simp only [hab, hba, if_false] at h h'
          have : a = b := le_antisymm (le_of_not_lt hba) (le_of_not_lt hab)
          rw [this, ih bs h h']

theorem strLe_total (a b : String) : strLe a b = true ∨ strLe b a = true := by
  unfold strLe
  by_cases h : charListLt b.data a.data = true
  · right; simp [charListLt_asymm _ _ h]
  · left; simp [Bool.not_eq_true] at h; simp [h]

theorem pairLe_total (a b : String × String) : pairLe a b = true ∨ pairLe b a = true := by
  unfold pairLe
  by_cases h1 : charListLt a.1.data b.1.data = true
  · left; simp [h1]
  · by_cases h2 : charListLt b.1.data a.1.data = true
    · right; simp [h2]
    · simp only [Bool.not_eq_true] at h1 h2
      have heq : a.1.data = b.1.data := charListLt_conn _ _ h1 h2
      by_cases h3 : charListLt b.2.data a.2.data = true
      · right; simp [heq, charListLt_asymm _ _ h3]
      · simp only [Bool.not_eq_true] at h3; left; simp [h1, heq, h3]

theorem mem_insertLe {α : Type} (le : α → α → Bool) (x : α) :
    ∀ (l : List α) (y : α), y ∈ insertLe le x l ↔ y = x ∨ y ∈ l := by
  intro l
  induction l with
  | nil => intro y; simp [insertLe]
  | cons a as ih =>
    intro y
    by_cases h : le x a = true
    · simp [insertLe, h, List.mem_cons]
    · simp [insertLe, h, List.mem_cons, ih]
      tauto

theorem mem_sortLe {α : Type} (le : α → α → Bool) :
    ∀ (l : List α) (y : α), y ∈ sortLe le l ↔ y ∈ l := by
  intro l
  induction l with
  | nil => intro y; simp [sortLe]
  | cons a as ih =>
    intro y
    simp only [sortLe, mem_insertLe, List.mem_cons, ih]

theorem length_insertLe {α : Type} (le : α → α → Bool) (x : α) :
    ∀ l : List α, (insertLe le x l).length = l.length + 1 := by
  intro l
  induction l with
  | nil => simp [insertLe]
  | cons a as ih =>
    by_cases h : le x a = true
    · simp [insertLe, h]
    · simp [insertLe, h, ih]

theorem length_sortLe {α : Type} (le : α → α → Bool) :
    ∀ l : List α, (sortLe le l).length = l.length := by
  intro l
  induction l with
  | nil => rfl
  | cons a as ih => simp [sortLe, length_insertLe, ih]

theorem head?_insertLe {α : Type} (le : α → α → Bool) (x : α) (l : List α) :
    (insertLe le x l).head? = some x ∨ (insertLe le x l).head? = l.head? := by
  cases l with
  | nil => left; rfl
  | cons a as =>
    by_cases h : le x a = true
    · left; simp [insertLe, h]
    · right; simp [insertLe, h]

theorem chain'_insertLe {α : Type} (le : α → α → Bool)
    (htot : ∀ a b, le a b = true ∨ le b a = true) (x : α) :
    ∀ l : List α, List.Chain' (fun a b => le a b = true) l →
      List.Chain' (fun a b => le a b = true) (insertLe le x l) := by
  intro l
  induction l with
  | nil => intro _; simp [insertLe]
  | cons a as ih =>
    intro hc
    rw [List.chain'_cons'] at hc
    by_cases h : le x a = true
    · have he : insertLe le x (a :: as) = x :: a :: as := by simp [insertLe, h]
      rw [he, List.chain'_cons']
      refine ⟨?_, List.chain'_cons'.mpr hc⟩
      intro y hy
      simp only [List.head?_cons, Option.mem_def, Option.some.injEq] at hy
      rw [← hy]; exact h
    · have he : insertLe le x (a :: as) = a :: insertLe le x as := by simp [insertLe, h]
      rw [he, List.chain'_cons']
      refine ⟨?_, ih hc.2⟩
      intro y hy
      rcases head?_insertLe le x as with h1 | h1
      · rw [h1] at hy
        simp only [Option.mem_def, Option.some.injEq] at hy
        rcases htot x a with h2 | h2
        · exact absurd h2 (by simp [h])
        · rw [← hy]; exact h2
      · rw [h1] at hy
        exact hc.1 y hy

theorem chain'_sortLe {α : Type} (le : α → α → Bool)
    (htot : ∀ a b, le a b = true ∨ le b a = true) :
    ∀ l : List α, List.Chain' (fun a b => le a b = true) (sortLe le l) := by
  intro l
  induction l with
  | nil => simp [sortLe]
  | cons a as ih => exact chain'_insertLe le htot a _ ih

/-! ## Lemmas: the set model -/

theorem mem_setInsert_iff (x y : String) (l : List String) :
    y ∈ setInsert x l ↔ y = x ∨ y ∈ l := by
  unfold setInsert
  by_cases h : x ∈ l
  · simp only [h, if_true]
    constructor
    · exact fun hy => Or.inr hy
    · rintro (rfl | hy) <;> assumption
  · simp [h, List.mem_append, or_comm]

theorem mem_setInsert_self (x : String) (l : List String) : x ∈ setInsert x l :=
  (mem_setInsert_iff x x l).mpr (Or.inl rfl)

theorem mem_setInsert_of_mem {y : String} {l : List String} (x : String) (h : y ∈ l) :
    y ∈ setInsert x l :=
  (mem_setInsert_iff x y l).mpr (Or.inr h)

theorem setInsert_ne_nil (x : String) (l : List String) : setInsert x l ≠ [] := by
  intro h
  exact absurd (h ▸ mem_setInsert_self x l) (List.not_mem_nil x)

/-! ## Lemmas: dict lookup and update -/

theorem lookupSym_eq_none_iff (syms : List (String × Symbol)) (n : String) :
    lookupSym syms n = none ↔ n ∉ keysOf syms := by
  induction syms with
  | nil => simp [lookupSym, keysOf]
  | cons p ps ih =>
    simp only [keysOf, List.map_cons, List.mem_cons] at ih ⊢
    simp only [lookupSym]
    by_cases h : p.1 = n
    · simp [h]
    · have h' : ¬n = p.1 := fun he => h he.symm
      simp [h, h', ih]

theorem lookupSym_mem {syms : List (String × Symbol)} {n : String} {s : Symbol}
    (h : lookupSym syms n = some s) : (n, s) ∈ syms := by
  induction syms with
  | nil => simp [lookupSym] at h
  | cons p ps ih =>
    simp only [lookupSym] at h
    by_cases hp : p.1 = n
    · simp only [hp, if_true, Option.some.injEq] at h
      have he : (n, s) = p := by rw [← hp, ← h]
      rw [he]
      exact List.mem_cons_self p ps
    · simp only [hp, if_false] at h
      exact List.mem_cons_of_mem _ (ih h)

theorem mem_lookupSym {syms : List (String × Symbol)} {n : String} {s : Symbol}
    (hnd : (keysOf syms).Nodup) (h : (n, s) ∈ syms) : lookupSym syms n = some s := by
  induction syms with
  | nil => simp at h
  | cons p ps ih =>
    simp only [keysOf, List.map_cons, List.nodup_cons] at hnd
    rcases List.mem_cons.mp h with h1 | h1
    · rw [← h1]; simp [lookupSym]
    · have hne : p.1 ≠ n := by
        intro he
        exact hnd.1 (he ▸ (List.mem_map.mpr ⟨(n, s), h1, rfl⟩))
      simp only [lookupSym, hne, if_false]
      exact ih hnd.2 h1

theorem mem_key_unique {syms : List (String × Symbol)} {n : String} {s s' : Symbol}
    (hnd : (keysOf syms).Nodup) (h : (n, s) ∈ syms) (h' : (n, s') ∈ syms) : s = s' := by
  have e1 := mem_lookupSym hnd h
  have e2 := mem_lookupSym hnd h'
  rw [e1] at e2
  exact Option.some.inj e2

theorem keysOf_updateSym (syms : List (String × Symbol)) (n : String) (f : Symbol → Symbol) :
    keysOf (updateSym syms n f) = keysOf syms := by
  induction syms with
  | nil => rfl
  | cons p ps ih =>
    simp only [updateSym, keysOf, List.map_cons] at ih ⊢
    by_cases h : p.1 = n
    · simp only [h, if_true, ih]
    · simp only [h, if_false, ih]

theorem lookupSym_updateSym_self (syms : List (String × Symbol)) (n : String)
    (f : Symbol → Symbol) :
    lookupSym (updateSym syms n f) n = (lookupSym syms n).map f := by
  induction syms with
  | nil => rfl
  | cons p ps ih =>
    simp only [updateSym, List.map_cons] at ih ⊢
    by_cases h : p.1 = n
    · simp [lookupSym, h]
    · simp only [lookupSym, h, if_false, ih]

theorem lookupSym_updateSym_ne (syms : List (String × Symbol)) {m n : String}
    (f : Symbol → Symbol) (h : m ≠ n) :
    lookupSym (updateSym syms n f) m = lookupSym syms m := by
  induction syms with
  | nil => rfl
  | cons p ps ih =>
    simp only [updateSym, List.map_cons] at ih ⊢
    by_cases hp : p.1 = n
    · have hnm : n ≠ m := fun he => h he.symm
      simp [lookupSym, hp, hnm, ih]
    · by_cases hm : p.1 = m
      · simp [lookupSym, hp, hm, h]
      · simp [lookupSym, hp, hm, ih]

theorem lookupSym_append_none {l1 : List (String × Symbol)} {n : String}
    (h : lookupSym l1 n = none) (l2 : List (String × Symbol)) :
    lookupSym (l1 ++ l2) n = lookupSym l2 n := by
  induction l1 with
  | nil => rfl
  | cons p ps ih =>
    simp only [lookupSym] at h
    by_cases hp : p.1 = n
    · simp [hp] at h
    · simp only [hp, if_false] at h
      simp only [List.cons_append, lookupSym, hp, if_false]
      exact ih h

theorem lookupSym_append_single_ne (l : List (String × Symbol)) {m n : String} (s : Symbol)
    (h : m ≠ n) : lookupSym (l ++ [(n, s)]) m = lookupSym l m := by
  induction l with
  | nil =>
    have h' : ¬n = m := fun he => h he.symm
    simp [lookupSym, h']
  | cons p ps ih =>
    simp only [List.cons_append, lookupSym]
    by_cases hp : p.1 = m
    · simp [hp]
    · simp [hp, ih]

/-! ## Lemmas: symbol-table operations -/

theorem lookup_get_or_create_self (st : Symtab) (n : String) :
    lookupSym (st.get_or_create n).syms n =
      some ((lookupSym st.syms n).getD ⟨n, none, [], []⟩) := by
  unfold Symtab.get_or_create
  cases h : lookupSym st.syms n with
  | some s => simp [h]
  | none =>
    simp only [h, Option.isSome_none, Bool.false_eq_true, if_false, Option.getD_none]
    rw [lookupSym_append_none h]
    simp [lookupSym]

theorem lookup_get_or_create_ne (st : Symtab) {m n : String} (h : m ≠ n) :
    lookupSym (st.get_or_create n).syms m = lookupSym st.syms m := by
  unfold Symtab.get_or_create
  cases hn : lookupSym st.syms n with
  | some s => simp [hn]
  | none =>
    simp only [hn, Option.isSome_none, Bool.false_eq_true, if_false]
    exact lookupSym_append_single_ne st.syms _ h

theorem usesOf_add_import_self (st : Symtab) (f n : String) :
    usesOf (st.add_import f n) n = setInsert f (usesOf st n) := by
  unfold Symtab.add_import usesOf
  simp only [lookupSym_updateSym_self, lookup_get_or_create_self]
  cases h : lookupSym st.syms n with
  | some s => simp [h]
  | none => simp [h]

theorem usesOf_add_import_ne (st : Symtab) (f n : String) {m : String} (h : m ≠ n) :
    usesOf (st.add_import f n) m = usesOf st m := by
  unfold Symtab.add_import usesOf
  simp only [lookupSym_updateSym_ne _ _ h, lookup_get_or_create_ne st h]

theorem usesOf_add_export (st : Symtab) (f n m : String) :
    usesOf (st.add_export f n) m = usesOf st m := by
  unfold Symtab.add_export usesOf
  by_cases h : m = n
  · subst h
    simp only [lookupSym_updateSym_self, lookup_get_or_create_self]
    cases hl : lookupSym st.syms m with
    | some s => simp [hl]
    | none => simp [hl]
  · simp only [lookupSym_updateSym_ne _ _ h, lookup_get_or_create_ne st h]

theorem mem_usesOf_add_import {x m : String} {st : Symtab} (f n : String)
    (h : x ∈ usesOf st m) : x ∈ usesOf (st.add_import f n) m := by
  by_cases hm : m = n
  · subst hm
    rw [usesOf_add_import_self]
    exact mem_setInsert_of_mem _ h
  · rw [usesOf_add_import_ne st f n hm]
    exact h

theorem self_mem_usesOf_add_import (st : Symtab) (f n : String) :
    f ∈ usesOf (st.add_import f n) n := by
  rw [usesOf_add_import_self]
  exact mem_setInsert_self _ _

theorem mem_usesOf_add_export {x m : String} {st : Symtab} (f n : String)
    (h : x ∈ usesOf st m) : x ∈ usesOf (st.add_export f n) m := by
  rw [usesOf_add_export]
  exact h

/-! ## Lemmas: ingestion folds -/

theorem mem_usesOf_addExports {x m : String} (es : List Entry) :
    ∀ st : Symtab, x ∈ usesOf st m → x ∈ usesOf (addExports st es) m := by
  induction es with
  | nil => intro st h; exact h
  | cons e es ih =>
    intro st h
    simp only [addExports, List.foldl_cons]
    exact ih _ (mem_usesOf_add_export e.file e.name h)

theorem mem_usesOf_addImports {x m : String} (es : List Entry) :
    ∀ st : Symtab, x ∈ usesOf st m → x ∈ usesOf (addImports st es) m := by
  induction es with
  | nil => intro st h; exact h
  | cons e es ih =>
    intro st h
    simp only [addImports, List.foldl_cons]
    exact ih _ (mem_usesOf_add_import e.file e.name h)

theorem mem_usesOf_addImports_self (e : Entry) :
    ∀ (es : List Entry) (st : Symtab), e ∈ es → e.file ∈ usesOf (addImports st es) e.name := by
  intro es
  induction es with
  | nil => intro st h; cases h
  | cons e' es ih =>
    intro st h
    simp only [addImports, List.foldl_cons]
    rcases List.mem_cons.mp h with h1 | h1
    · subst h1
      exact mem_usesOf_addImports es _ (self_mem_usesOf_add_import st e.file e.name)
    · exact ih _ h1

theorem mem_usesOf_ingestReport {x m : String} (r : Report) (st : Symtab)
    (h : x ∈ usesOf st m) : x ∈ usesOf (ingestReport st r) m :=
  mem_usesOf_addImports _ _ (mem_usesOf_addImports _ _ (mem_usesOf_addExports _ _ h))

theorem mem_usesOf_ingestReport_self (e : Entry) (r : Report) (st : Symtab)
    (h : e ∈ r.imports ∨ e ∈ r.global_exports) :
    e.file ∈ usesOf (ingestReport st r) e.name := by
  unfold ingestReport
  rcases h with h | h
  · exact mem_usesOf_addImports _ _ (mem_usesOf_addImports_self e r.imports _ h)
  · exact mem_usesOf_addImports_self e r.global_exports _ h

theorem mem_usesOf_foldl_reports {x m : String} (reports : List Report) :
    ∀ st : Symtab, x ∈ usesOf st m → x ∈ usesOf (reports.foldl ingestReport st) m := by
  induction reports with
  | nil => intro st h; exact h
  | cons r rs ih =>
    intro st h
    simp only [List.foldl_cons]
    exact ih _ (mem_usesOf_ingestReport r st h)

theorem mem_usesOf_buildSymtab {e : Entry} {r : Report} {reports : List Report}
    (hr : r ∈ reports) (he : e ∈ r.imports ∨ e ∈ r.global_exports) :
    e.file ∈ usesOf (buildSymtab reports) e.name := by
  unfold buildSymtab
  have key : ∀ (rs : List Report) (st : Symtab), r ∈ rs →
      e.file ∈ usesOf (rs.foldl ingestReport st) e.name := by
    intro rs
    induction rs with
    | nil => intro st h; cases h
    | cons r' rs ih =>
      intro st h
      simp only [List.foldl_cons]
      rcases List.mem_cons.mp h with h1 | h1
      · subst h1
        exact mem_usesOf_foldl_reports rs _ (mem_usesOf_ingestReport_self e r st he)
      · exact ih _ h1
  exact key reports _ hr

/-! ## Lemmas: table well-formedness -/

theorem tableWF_get_or_create {st : Symtab} (h : TableWF st) (n : String) :
    TableWF (st.get_or_create n) := by
  unfold Symtab.get_or_create
  cases hl : lookupSym st.syms n with
  | some s => simpa [hl] using h
  | none =>
    simp only [hl, Option.isSome_none, Bool.false_eq_true, if_false]
    have hn : n ∉ keysOf st.syms := (lookupSym_eq_none_iff _ _).mp hl
    rcases h with ⟨h1, h2⟩
    constructor
    · show (keysOf (st.syms ++ [(n, ⟨n, none, [], []⟩)])).Nodup
      simp only [keysOf, List.map_append, List.map_cons, List.map_nil] at hn h1 ⊢
      rw [List.nodup_append]
      refine ⟨h1, List.nodup_singleton n, ?_⟩
      intro a ha hb
      simp only [List.mem_singleton] at hb
      subst hb
      exact hn ha
    · intro p hp
      rcases List.mem_append.mp hp with h3 | h3
      · exact h2 p h3
      · simp only [List.mem_singleton] at h3
        rw [h3]

theorem tableWF_syms_updateSym {syms : List (String × Symbol)} {n : String}
    {f : Symbol → Symbol} (hf : ∀ s, (f s).name = s.name)
    (h1 : (keysOf syms).Nodup) (h2 : ∀ p ∈ syms, p.2.name = p.1) :
    (keysOf (updateSym syms n f)).Nodup ∧ ∀ p ∈ updateSym syms n f, p.2.name = p.1 := by
  constructor
  · rw [keysOf_updateSym]
    exact h1
  · intro p hp
    rcases List.mem_map.mp hp with ⟨q, hq, he⟩
    by_cases hqn : q.1 = n
    · rw [if_pos hqn] at he
      rw [← he]
      show (f q.2).name = q.1
      rw [hf q.2]
      exact h2 q hq
    · rw [if_neg hqn] at he
      rw [← he]
      exact h2 q hq

theorem tableWF_add_import {st : Symtab} (h : TableWF st) (f n : String) :
    TableWF (st.add_import f n) := by
  have h1 := tableWF_get_or_create h n
  exact @tableWF_syms_updateSym (st.get_or_create n).syms n
    (fun s => { s with uses := setInsert f s.uses }) (fun _ => rfl) h1.1 h1.2

theorem tableWF_add_export {st : Symtab} (h : TableWF st) (f n : String) :
    TableWF (st.add_export f n) := by
  have h1 := tableWF_get_or_create h n
  exact @tableWF_syms_updateSym (st.get_or_create n).syms n
    (fun s => { s with defs := setInsert f s.defs }) (fun _ => rfl) h1.1 h1.2

theorem tableWF_setDemangled {st : Symtab} (h : TableWF st) (n d : String) :
    TableWF (st.setDemangled n d) :=
  @tableWF_syms_updateSym st.syms n (fun s => { s with demangled_name := some d })
    (fun _ => rfl) h.1 h.2

theorem tableWF_addExports (es : List Entry) :
    ∀ st : Symtab, TableWF st → TableWF (addExports st es) := by
  induction es with
  | nil => intro st h; exact h
  | cons e es ih =>
    intro st h
    simp only [addExports, List.foldl_cons]
    exact ih _ (tableWF_add_export h e.file e.name)

theorem tableWF_addImports (es : List Entry) :
    ∀ st : Symtab, TableWF st → TableWF (addImports st es) := by
  induction es with
  | nil => intro st h; exact h
  | cons e es ih =>
    intro st h
    simp only [addImports, List.foldl_cons]
    exact ih _ (tableWF_add_import h e.file e.name)

theorem tableWF_ingestReport {st : Symtab} (h : TableWF st) (r : Report) :
    TableWF (ingestReport st r) :=
  tableWF_addImports _ _ (tableWF_addImports _ _ (tableWF_addExports _ _ h))

theorem tableWF_buildSymtab (reports : List Report) : TableWF (buildSymtab reports) := by
  unfold buildSymtab
  have key : ∀ (rs : List Report) (st : Symtab), TableWF st →
      TableWF (rs.foldl ingestReport st) := by
    intro rs
    induction rs with
    | nil => intro st h; exact h
    | cons r rs ih =>
      intro st h
      simp only [List.foldl_cons]
      exact ih _ (tableWF_ingestReport h r)
  exact key reports _ ⟨List.nodup_nil, by intro p hp; cases hp⟩

/-! ## Lemmas: the demangling pass only touches `demangled_name` -/

theorem sameCore_refl (st : Symtab) : SameCore st st := by
  intro n
  cases hx : lookupSym st.syms n <;> simp [hx]

theorem sameCore_trans {a b c : Symtab} (h1 : SameCore a b) (h2 : SameCore b c) :
    SameCore a c := by
  intro n
  have g1 := h1 n
  have g2 := h2 n
  cases ha : lookupSym a.syms n <;> cases hb : lookupSym b.syms n <;>
    cases hc : lookupSym c.syms n <;> simp_all

theorem sameCore_setDemangled (st : Symtab) (n d : String) :
    SameCore st (st.setDemangled n d) := by
  intro m
  show match lookupSym st.syms m, lookupSym (st.setDemangled n d).syms m with
    | none, none => True
    | some s, some s' => s'.name = s.name ∧ s'.defs = s.defs ∧ s'.uses = s.uses
    | _, _ => False
  unfold Symtab.setDemangled
  by_cases h : m = n
  · subst h
    rw [lookupSym_updateSym_self]
    cases hx : lookupSym st.syms m <;> simp [hx]
  · rw [lookupSym_updateSym_ne _ _ h]
    cases hx : lookupSym st.syms m <;> simp [hx]

theorem keysOf_setDemangled (st : Symtab) (n d : String) :
    keysOf (st.setDemangled n d).syms = keysOf st.syms := by
  show keysOf (updateSym st.syms n (fun s => { s with demangled_name := some d })) =
    keysOf st.syms
  exact keysOf_updateSym _ _ _

theorem assignDemangled_core (lines : List String) :
    ∀ (names : List String) (st st' : Symtab), assignDemangled st names lines = .ok st' →
      SameCore st st' ∧ keysOf st'.syms = keysOf st.syms := by
  induction lines with
  | nil =>
    intro names st st' h
    cases names <;>
      (simp only [assignDemangled, Except.ok.injEq] at h; subst h;
       exact ⟨sameCore_refl st, rfl⟩)
  | cons l ls ih =>
    intro names st st' h
    cases names with
    | nil => simp [assignDemangled] at h
    | cons n ns =>
      simp only [assignDemangled] at h
      rcases ih ns _ st' h with ⟨hc, hk⟩
      exact ⟨sameCore_trans (sameCore_setDemangled st n (stem l)) hc,
        by rw [hk, keysOf_setDemangled]⟩

theorem tableWF_of_sameCore {st st' : Symtab} (h : TableWF st) (hc : SameCore st st')
    (hk : keysOf st'.syms = keysOf st.syms) : TableWF st' := by
  refine ⟨hk ▸ h.1, ?_⟩
  intro p hp
  have hl' : lookupSym st'.syms p.1 = some p.2 := mem_lookupSym (hk ▸ h.1) hp
  have g := hc p.1
  cases hx : lookupSym st.syms p.1 with
  | none =>
    simp only [hx, hl'] at g
  | some s =>
    simp only [hx, hl'] at g
    have hs : s.name = p.1 := h.2 (p.1, s) (lookupSym_mem hx)
    rw [g.1, hs]

theorem sameCore_uses {st st' : Symtab} (hc : SameCore st st') {x n : String}
    (h : x ∈ usesOf st n) : x ∈ usesOf st' n := by
  have g := hc n
  unfold usesOf at h ⊢
  cases hx : lookupSym st.syms n with
  | none => rw [hx] at h; simp at h
  | some s =>
    rw [hx] at h
    cases hx' : lookupSym st'.syms n with
    | none => simp only [hx, hx'] at g
    | some s' =>
      simp only [hx, hx'] at g
      show x ∈ s'.uses
      rw [g.2.2]
      exact h

theorem populatedSymtab_props {dem : DemanglerBehavior} {reports : List Report} {st : Symtab}
    (h : populatedSymtab dem reports = .ok st) :
    TableWF st ∧ SameCore (buildSymtab reports) st ∧
      keysOf st.syms = keysOf (buildSymtab reports).syms := by
  unfold populatedSymtab at h
  by_cases he : (buildSymtab reports).empty = true
  · simp only [he, if_true, Except.ok.injEq] at h
    subst h
    exact ⟨tableWF_buildSymtab reports, sameCore_refl _, rfl⟩
  · simp only [he, if_false] at h
    cases dem with
    | absent => simp at h
    | runs rc out =>
      rcases assignDemangled_core _ _ _ _ h with ⟨hc, hk⟩
      exact ⟨tableWF_of_sameCore (tableWF_buildSymtab reports) hc hk, hc, hk⟩

/-! ## Lemmas: classification and reporting -/

theorem mem_candidateSyms_iff {st : Symtab} {hs : List String} (sym : Symbol) :
    sym ∈ candidateSyms st hs ↔
      (∃ k, (k, sym) ∈ st.syms) ∧
        (!sym.is_system_symbol && !demangledInHeaders sym hs && !sym.is_imported) = true := by
  unfold candidateSyms
  rw [List.mem_filter]
  constructor
  · rintro ⟨h1, h2⟩
    rcases List.mem_map.mp h1 with ⟨p, hp, he⟩
    refine ⟨⟨p.1, ?_⟩, h2⟩
    rw [← he]
    exact hp
  · rintro ⟨⟨k, hk⟩, h2⟩
    exact ⟨List.mem_map.mpr ⟨(k, sym), hk, rfl⟩, h2⟩

theorem mem_reportLines_candidate {st : Symtab} (hWF : TableWF st)
    (pick : List String → String) (k : Nat) (hs : List String) (name org : String) :
    ReportLine.candidate name org ∈ reportLines pick k st hs ↔
      ∃ sym : Symbol, (name, sym) ∈ st.syms ∧ org = pick sym.defs ∧
        (!sym.is_system_symbol && !demangledInHeaders sym hs && !sym.is_imported) = true := by
  unfold reportLines
  by_cases hb : (candidateSyms st hs).isEmpty = true
  · rw [if_pos hb]
    constructor
    · intro h
      simp only [List.mem_singleton] at h
      cases h
    · rintro ⟨sym, hmem, _, hcond⟩
      have hin : sym ∈ candidateSyms st hs :=
        (mem_candidateSyms_iff sym).mpr ⟨⟨name, hmem⟩, hcond⟩
      rw [List.isEmpty_iff.mp hb] at hin
      cases hin
  · rw [if_neg hb]
    constructor
    · intro h
      rcases List.mem_cons.mp h with h1 | h1
      · cases h1
      · rcases List.mem_map.mp h1 with ⟨pr, hpr, he⟩
        simp only [ReportLine.candidate.injEq] at he
        have hpr' : pr ∈ (candidateSyms st hs).map fun sym => (pick sym.defs, sym.name) :=
          (mem_sortLe _ _ _).mp hpr
        rcases List.mem_map.mp hpr' with ⟨sym, hsym, he2⟩
        rcases (mem_candidateSyms_iff sym).mp hsym with ⟨⟨k', hk'⟩, hcond⟩
        have hn : sym.name = k' := hWF.2 (k', sym) hk'
        have hname : sym.name = name := by rw [← he.1, ← he2]
        have horg : pick sym.defs = org := by rw [← he.2, ← he2]
        refine ⟨sym, ?_, horg.symm, hcond⟩
        have hkn : k' = name := by rw [← hn, hname]
        rw [← hkn]
        exact hk'
    · rintro ⟨sym, hmem, horg, hcond⟩
      apply List.mem_cons_of_mem
      apply List.mem_map.mpr
      refine ⟨(pick sym.defs, sym.name), ?_, ?_⟩
      · apply (mem_sortLe _ _ _).mpr
        exact List.mem_map.mpr ⟨sym, (mem_candidateSyms_iff sym).mpr ⟨⟨name, hmem⟩, hcond⟩, rfl⟩
      · have hn : sym.name = name := hWF.2 (name, sym) hmem
        rw [hn, ← horg]

theorem analyze_reports_ok {cfg : AnalyzerConfig} {reports : List Report}
    {header_syms : List String} {out : AnalysisOutput}
    (h : analyze_reports cfg reports header_syms = .ok out) :
    ((buildSymtab reports).empty = true ∧ out = ⟨[], []⟩) ∨
      ((buildSymtab reports).empty = false ∧
        ∃ st, populatedSymtab cfg.demangler reports = .ok st ∧
          out = ⟨dupWarnings cfg.verbose st,
            reportLines cfg.pick reports.length st header_syms⟩) := by
  unfold analyze_reports at h
  by_cases he : (buildSymtab reports).empty = true
  · rw [if_pos he] at h
    exact Or.inl ⟨he, (Except.ok.inj h).symm⟩
  · rw [if_neg he] at h
    cases hp : populatedSymtab cfg.demangler reports with
    | error e =>
      simp only [hp] at h
      exact Except.noConfusion h
    | ok st =>
      simp only [hp, Except.ok.injEq] at h
      exact Or.inr ⟨by simpa using he, st, rfl, h.symm⟩

theorem is_imported_false_iff (sym : Symbol) :
    sym.is_imported = false ↔ sym.uses = [] := by
  unfold Symbol.is_imported
  simp [List.length_eq_zero]

theorem no_candidate_core {cfg : AnalyzerConfig} {reports : List Report}
    {header_syms : List String} {out : AnalysisOutput} (r : Report) (e : Entry)
    (hr : r ∈ reports) (he : e ∈ r.imports ∨ e ∈ r.global_exports)
    (h : analyze_reports cfg reports header_syms = .ok out) :
    ∀ org, ReportLine.candidate e.name org ∉ out.lines := by
  intro org hline
  rcases analyze_reports_ok h with ⟨hemp, hout⟩ | ⟨hemp, st, hst, hout⟩
  · rw [hout] at hline
    cases hline
  · rw [hout] at hline
    have props := populatedSymtab_props hst
    rcases (mem_reportLines_candidate props.1 _ _ _ _ _).mp hline with ⟨sym, hmem, _, hcond⟩
    have husebuild : e.file ∈ usesOf (buildSymtab reports) e.name :=
      mem_usesOf_buildSymtab hr he
    have huse : e.file ∈ usesOf st e.name := sameCore_uses props.2.1 husebuild
    have hlk : lookupSym st.syms e.name = some sym := mem_lookupSym props.1.1 hmem
    have hmemuse : e.file ∈ sym.uses := by
      unfold usesOf at huse
      rw [hlk] at huse
      exact huse
    simp only [Bool.and_eq_true, Bool.not_eq_true'] at hcond
    have hnil : sym.uses = [] := (is_imported_false_iff sym).mp hcond.2
    rw [hnil] at hmemuse
    cases hmemuse

/-! ## Claim C1 -/

/-- C1: for every symbol in the fully populated symbol table, it appears in
the final candidate list if and only if no definition origin of the symbol
is a system path, its canonical (demangled) name is not in the header
symbol set, and its use-origin set is empty. -/
theorem c1_candidate_iff (cfg : AnalyzerConfig) (reports : List Report)
    (header_syms : List String) (out : AnalysisOutput) (st : Symtab) (name : String)
    (sym : Symbol) (h : analyze_reports cfg reports header_syms = .ok out)
    (hst : populatedSymtab cfg.demangler reports = .ok st)
    (hmem : (name, sym) ∈ st.syms) :
    (∃ org, ReportLine.candidate name org ∈ out.lines) ↔
      (sym.is_system_symbol = false ∧ demangledInHeaders sym header_syms = false ∧
        sym.uses = []) := by
  rcases analyze_reports_ok h with ⟨hemp, hout⟩ | ⟨hemp, st', hst', hout⟩
  · exfalso
    simp only [populatedSymtab, hemp, if_true, Except.ok.injEq] at hst
    have hemp' : (buildSymtab reports).syms.isEmpty = true := hemp
    have hnil : st.syms = [] := by
      rw [← hst]
      exact List.isEmpty_iff.mp hemp'
    rw [hnil] at hmem
    cases hmem
  · rw [hst] at hst'
    have hstst : st = st' := Except.ok.inj hst'
    subst hstst
    have hWF := (populatedSymtab_props hst).1
    rw [hout]
    constructor
    · rintro ⟨org, hline⟩
      rcases (mem_reportLines_candidate hWF _ _ _ _ _).mp hline with ⟨sym', hmem', _, hcond⟩
      have hse : sym' = sym := mem_key_unique hWF.1 hmem' hmem
      subst hse
      simp only [Bool.and_eq_true, Bool.not_eq_true'] at hcond
      exact ⟨hcond.1.1, hcond.1.2, (is_imported_false_iff _).mp hcond.2⟩
    · rintro ⟨h1, h2, h3⟩
      refine ⟨cfg.pick sym.defs, ?_⟩
      apply (mem_reportLines_candidate hWF _ _ _ _ _).mpr
      refine ⟨sym, hmem, rfl, ?_⟩
      simp only [Bool.and_eq_true, Bool.not_eq_true']
      exact ⟨⟨h1, h2⟩, (is_imported_false_iff _).mpr h3⟩

/-- Witness for `c1_candidate_iff` at a concrete run (one export of `foo`
from `a.c`, no imports, empty header set). -/
theorem c1_candidate_iff_witness :
    (∃ org, ReportLine.candidate "foo" org ∈
        (AnalysisOutput.mk [] [ReportLine.header, ReportLine.candidate "foo" "a.c"]).lines) ↔
      ((Symbol.mk "foo" (some "foo") ["a.c"] []).is_system_symbol = false ∧
        demangledInHeaders (Symbol.mk "foo" (some "foo") ["a.c"] []) [] = false ∧
        (Symbol.mk "foo" (some "foo") ["a.c"] []).uses = []) :=
  c1_candidate_iff ⟨false, .runs 0 "foo", pickFirst⟩ [⟨[⟨"a.c", "foo"⟩], [], []⟩] []
    ⟨[], [ReportLine.header, ReportLine.candidate "foo" "a.c"]⟩
    ⟨[("foo", ⟨"foo", some "foo", ["a.c"], []⟩)], [], [("foo", ["a.c"])]⟩
    "foo" (Symbol.mk "foo" (some "foo") ["a.c"] []) (by decide) (by decide) (by decide)

/-! ## Claim C2 -/

/-- C2 counterexample: a symbol exported from `a.c` and imported only from
`a.c` itself (self-use) does NOT appear in the candidate list: the run
prints the success line and no candidate line for `foo`, contradicting the
claim that an import record from the symbol's own defining file does not
disqualify it. -/
theorem c2_counterexample :
    analyze_reports ⟨false, .runs 0 "foo", pickFirst⟩
        [⟨[⟨"a.c", "foo"⟩], [⟨"a.c", "foo"⟩], []⟩] [] =
      .ok ⟨[], [ReportLine.noViolations 1]⟩ ∧
    ReportLine.candidate "foo" "a.c" ∉ [ReportLine.noViolations 1] :=
  ⟨by decide, by decide⟩

/-- C2 amended: an import record disqualifies a symbol from candidacy even
when it originates from the symbol's own defining file: `add_import`
records the use unconditionally, `is_imported` then holds, and no candidate
line for the symbol is printed. -/
theorem c2_amended (cfg : AnalyzerConfig) (reports : List Report)
    (header_syms : List String) (out : AnalysisOutput) (r : Report) (e : Entry)
    (hr : r ∈ reports) (he : e ∈ r.imports)
    (h : analyze_reports cfg reports header_syms = .ok out) :
    ∀ org, ReportLine.candidate e.name org ∉ out.lines :=
  no_candidate_core r e hr (Or.inl he) h

/-- Witness for `c2_amended` at the self-import run. -/
theorem c2_amended_witness :
    ReportLine.candidate "foo" "a.c" ∉
      (AnalysisOutput.mk [] [ReportLine.noViolations 1]).lines :=
  c2_amended ⟨false, .runs 0 "foo", pickFirst⟩ [⟨[⟨"a.c", "foo"⟩], [⟨"a.c", "foo"⟩], []⟩] []
    ⟨[], [ReportLine.noViolations 1]⟩ ⟨[⟨"a.c", "foo"⟩], [⟨"a.c", "foo"⟩], []⟩ ⟨"a.c", "foo"⟩
    (by decide) (by decide) (by decide) "a.c"

/-! ## Claim C3 -/

/-- C3: a symbol occurring in any report's `global_exports` list never
appears in the candidate list, regardless of what other export or import
records exist: the global-export record is fed to `add_import`, so the
symbol counts as imported. -/
theorem c3_global_export_never_candidate (cfg : AnalyzerConfig) (reports : List Report)
    (header_syms : List String) (out : AnalysisOutput) (r : Report) (e : Entry)
    (hr : r ∈ reports) (he : e ∈ r.global_exports)
    (h : analyze_reports cfg reports header_syms = .ok out) :
    ∀ org, ReportLine.candidate e.name org ∉ out.lines :=
  no_candidate_core r e hr (Or.inr he) h

/-- Witness for `c3_global_export_never_candidate`: `foo` exported from
`b.c` and globally exported from `lib.so` is not a candidate. -/
theorem c3_witness :
    ReportLine.candidate "foo" "b.c" ∉
      (AnalysisOutput.mk [] [ReportLine.noViolations 1]).lines :=
  c3_global_export_never_candidate ⟨false, .runs 0 "foo", pickFirst⟩
    [⟨[⟨"b.c", "foo"⟩], [], [⟨"lib.so", "foo"⟩]⟩] [] ⟨[], [ReportLine.noViolations 1]⟩
    ⟨[⟨"b.c", "foo"⟩], [], [⟨"lib.so", "foo"⟩]⟩ ⟨"lib.so", "foo"⟩
    (by decide) (by decide) (by decide) "b.c"

/-! ## Claim C4 -/

theorem pickFirst_mem : ∀ l : List String, l ≠ [] → pickFirst l ∈ l := by
  intro l h
  cases l with
  | nil => exact absurd rfl h
  | cons a as => exact List.mem_cons_self a as

theorem getLastD_mem_cons : ∀ (l : List String) (a d : String), (a :: l).getLastD d ∈ a :: l := by
  intro l
  induction l with
  | nil => intro a d; simp [List.getLastD]
  | cons b bs ih =>
    intro a d
    rw [List.getLastD_cons]
    exact List.mem_cons_of_mem a (ih b a)

theorem pickLast_mem : ∀ l : List String, l ≠ [] → pickLast l ∈ l := by
  intro l h
  cases l with
  | nil => exact absurd rfl h
  | cons a as => exact getLastD_mem_cons as a ""

/-- C4 counterexample: with `foo` defined in both `b.c` and `a.c`, two runs
over the same reports and header set, differing only in the set-iteration
order behind `first_origin` (the `next(iter(set))` of the source, which
Python does not fix across processes), print different candidate lists, so
runs are not byte-identical. -/
theorem c4_counterexample :
    analyze_reports ⟨false, .runs 0 "foo", pickFirst⟩
        [⟨[⟨"b.c", "foo"⟩, ⟨"a.c", "foo"⟩], [], []⟩] [] =
      .ok ⟨[], [ReportLine.header, ReportLine.candidate "foo" "b.c"]⟩ ∧
    analyze_reports ⟨false, .runs 0 "foo", pickLast⟩
        [⟨[⟨"b.c", "foo"⟩, ⟨"a.c", "foo"⟩], [], []⟩] [] =
      .ok ⟨[], [ReportLine.header, ReportLine.candidate "foo" "a.c"]⟩ ∧
    (AnalysisOutput.mk [] [ReportLine.header, ReportLine.candidate "foo" "b.c"]) ≠
      (AnalysisOutput.mk [] [ReportLine.header, ReportLine.candidate "foo" "a.c"]) :=
  ⟨by decide, by decide, by decide⟩

/-- C4 amended: the analysis output is a function of the inputs and the
set-iteration order; whenever every candidate symbol has exactly one
definition origin, the output is moreover independent of that order, so two
runs produce identical candidate lists (which are sorted by the pair of
first definition origin and symbol name by construction of
`reportLines`). -/
theorem c4_amended (v : Bool) (dem : DemanglerBehavior) (p1 p2 : List String → String)
    (reports : List Report) (header_syms : List String) (st : Symtab)
    (h1 : ∀ l, l ≠ [] → p1 l ∈ l) (h2 : ∀ l, l ≠ [] → p2 l ∈ l)
    (hst : populatedSymtab dem reports = .ok st)
    (hsing : ∀ sym ∈ candidateSyms st header_syms, sym.defs.length = 1) :
    analyze_reports ⟨v, dem, p1⟩ reports header_syms =
      analyze_reports ⟨v, dem, p2⟩ reports header_syms := by
  unfold analyze_reports
  by_cases he : (buildSymtab reports).empty = true
  · rw [if_pos he, if_pos he]
  · rw [if_neg he, if_neg he]
    simp only [hst]
    have hrep : reportLines p1 reports.length st header_syms =
        reportLines p2 reports.length st header_syms := by
      unfold reportLines
      by_cases hb : (candidateSyms st header_syms).isEmpty = true
      · rw [if_pos hb, if_pos hb]
      · rw [if_neg hb, if_neg hb]
        have hmap : (candidateSyms st header_syms).map (fun sym => (p1 sym.defs, sym.name)) =
            (candidateSyms st header_syms).map (fun sym => (p2 sym.defs, sym.name)) := by
          apply List.map_congr_left
          intro sym hsym
          rcases List.length_eq_one.mp (hsing sym hsym) with ⟨d, hd⟩
          have e1 : p1 sym.defs = d := by
            rw [hd]
            simpa using h1 [d] (by simp)
          have e2 : p2 sym.defs = d := by
            rw [hd]
            simpa using h2 [d] (by simp)
          rw [e1, e2]
        rw [hmap]
    rw [hrep]

/-- Witness for `c4_amended`: with a single-origin candidate the two
iteration orders give identical runs. -/
theorem c4_amended_witness :
    analyze_reports ⟨false, .runs 0 "foo", pickFirst⟩ [⟨[⟨"a.c", "foo"⟩], [], []⟩] [] =
      analyze_reports ⟨false, .runs 0 "foo", pickLast⟩ [⟨[⟨"a.c", "foo"⟩], [], []⟩] [] :=
  c4_amended false (.runs 0 "foo") pickFirst pickLast [⟨[⟨"a.c", "foo"⟩], [], []⟩] []
    ⟨[("foo", ⟨"foo", some "foo", ["a.c"], []⟩)], [], [("foo", ["a.c"])]⟩
    pickFirst_mem pickLast_mem (by decide) (by decide)

/-! ## Claim C5 -/

/-- C5 counterexample: on the demangled name `f(int)` the source's stem
computation strips from the LAST `(` (Python `rfind('(')`), yielding `f`,
while the specification's "strip from the first unmatched `(`" leaves
`f(int)` unchanged, because every `(` in it is matched. -/
theorem c5_counterexample : stem "f(int)" ≠ specStem "f(int)" := by decide

theorem lastParenFwd_eq (cs : List Char) :
    ∀ (i : Nat) (acc : Option Nat), lastParenFwd cs i acc =
      match rfindChar '(' cs with
      | some j => some (i + j)
      | none => acc := by
  induction cs with
  | nil => intro i acc; rfl
  | cons c cs ih =>
    intro i acc
    simp only [lastParenFwd, rfindChar]
    rw [ih]
    cases hr : rfindChar '(' cs with
    | some j => simp [Nat.add_assoc, Nat.add_comm 1 j]
    | none =>
      by_cases hc : c == '('
      · simp [hc]
      · simp [hc]

theorem lastScopeFwd_eq (cs : List Char) :
    ∀ (i : Nat) (acc : Option Nat), lastScopeFwd cs i acc =
      match rfindScope cs with
      | some j => some (i + j)
      | none => acc := by
  induction cs with
  | nil => intro i acc; rfl
  | cons a tail ih =>
    intro i acc
    cases tail with
    | nil => rfl
    | cons b rest =>
      simp only [lastScopeFwd, rfindScope]
      rw [ih]
      cases hr : rfindScope (b :: rest) with
      | some j => simp [Nat.add_assoc, Nat.add_comm 1 j]
      | none =>
        by_cases hc : a == ':' && b == ':'
        · simp [hc]
        · simp [hc]

/-- C5 amended: the Name Normalizer's stem strips the text from the LAST
`(` of the demangled name to the end (not from the first unmatched `(`),
then takes the text after the last scope-separator `::`; names the
demangler passes through unchanged flow through the same two steps.  Stated
as equality with an independent forward-scan formulation of that rule. -/
theorem c5_amended : ∀ s : String, stem s = amendedStem s := by
  intro s
  unfold stem amendedStem stemChars amendedStemChars
  rw [lastParenFwd_eq]
  cases h1 : rfindChar '(' s.data with
  | some j =>
    simp only [h1, Nat.zero_add]
    rw [lastScopeFwd_eq]
    cases h2 : rfindScope (s.data.take j) <;> simp [h2]
  | none =>
    simp only [h1]
    rw [lastScopeFwd_eq]
    cases h2 : rfindScope s.data <;> simp [h2]

/-! ## Claim C6 -/

theorem mem_dupWarnings_iff (st : Symtab) (w : DupWarning) :
    w ∈ dupWarnings true st ↔
      ∃ sym : Symbol, (w.name, sym) ∈ st.syms ∧ sym.has_multiple_defs = true ∧
        firstCharUnderscore w.name = false ∧ w.name ≠ "main" ∧
        w.origins = sortStrings sym.defs := by
  obtain ⟨wn, worg⟩ := w
  unfold dupWarnings
  rw [if_pos rfl, List.mem_filterMap]
  constructor
  · rintro ⟨p, hp, hf⟩
    have hp' : p ∈ st.syms := (mem_sortLe _ _ _).mp hp
    by_cases hm : p.2.has_multiple_defs = true
    · rw [if_pos hm] at hf
      by_cases hu : firstCharUnderscore p.1 = true
      · rw [if_pos hu] at hf; cases hf
      · rw [if_neg hu] at hf
        by_cases hmain : p.1 = "main"
        · rw [if_pos hmain] at hf; cases hf
        · rw [if_neg hmain] at hf
          have he := Option.some.inj hf
          simp only [DupWarning.mk.injEq] at he
          obtain ⟨he1, he2⟩ := he
          subst he1
          refine ⟨p.2, hp', hm, ?_, hmain, he2.symm⟩
          simpa using hu
    · rw [if_neg hm] at hf; cases hf
  · rintro ⟨sym, hmem, hm, hu, hmain, horg⟩
    have hmem' : (wn, sym) ∈ st.syms := hmem
    have horg' : worg = sortStrings sym.defs := horg
    have hu' : ¬firstCharUnderscore wn = true := by simpa using hu
    have hmain' : ¬wn = "main" := hmain
    refine ⟨(wn, sym), (mem_sortLe _ _ _).mpr hmem', ?_⟩
    rw [if_pos hm, if_neg hu', if_neg hmain', horg']

/-- C6 counterexample: in the default non-verbose mode, a symbol with two
distinct definition origins, a name that is not `main` and does not start
with `_`, gets NO duplicate-definition warning — the whole warning pass is
gated on the verbose flag — contradicting the claimed "emitted iff". -/
theorem c6_counterexample :
    analyze_reports ⟨false, .runs 0 "foo", pickFirst⟩
        [⟨[⟨"b.c", "foo"⟩, ⟨"a.c", "foo"⟩], [], []⟩] [] =
      .ok ⟨[], [ReportLine.header, ReportLine.candidate "foo" "b.c"]⟩ ∧
    populatedSymtab (.runs 0 "foo") [⟨[⟨"b.c", "foo"⟩, ⟨"a.c", "foo"⟩], [], []⟩] =
      .ok ⟨[("foo", ⟨"foo", some "foo", ["b.c", "a.c"], []⟩)], [],
        [("foo", ["b.c", "a.c"])]⟩ ∧
    (Symbol.mk "foo" (some "foo") ["b.c", "a.c"] []).has_multiple_defs = true ∧
    firstCharUnderscore "foo" = false ∧ "foo" ≠ "main" :=
  ⟨by decide, by decide, by decide, by decide, by decide⟩

/-- C6 amended: in verbose mode, a duplicate-definition warning for a name
is emitted iff the table's symbol of that name has at least two distinct
definition origins, the name does not begin with `_`, and the name is not
`main`; the warning carries all of that symbol's definition origins,
sorted.  (In non-verbose mode — the default — no warnings are emitted at
all, as the counterexample shows.) -/
theorem c6_amended (cfg : AnalyzerConfig) (reports : List Report)
    (header_syms : List String) (out : AnalysisOutput) (st : Symtab)
    (hv : cfg.verbose = true)
    (h : analyze_reports cfg reports header_syms = .ok out)
    (hst : populatedSymtab cfg.demangler reports = .ok st) :
    ∀ w : DupWarning, w ∈ out.warnings ↔
      ∃ sym : Symbol, (w.name, sym) ∈ st.syms ∧ sym.has_multiple_defs = true ∧
        firstCharUnderscore w.name = false ∧ w.name ≠ "main" ∧
        w.origins = sortStrings sym.defs ∧
        List.Chain' (fun a b => strLe a b = true) w.origins ∧
        (∀ x, x ∈ w.origins ↔ x ∈ sym.defs) := by
  intro w
  rcases analyze_reports_ok h with ⟨hemp, hout⟩ | ⟨hemp, st', hst', hout⟩
  · simp only [populatedSymtab, hemp, if_true, Except.ok.injEq] at hst
    have hemp' : (buildSymtab reports).syms.isEmpty = true := hemp
    have hnil : st.syms = [] := by
      rw [← hst]
      exact List.isEmpty_iff.mp hemp'
    rw [hout]
    constructor
    · intro hw; cases hw
    · rintro ⟨sym, hmem, _⟩
      rw [hnil] at hmem
      cases hmem
  · rw [hst] at hst'
    have hstst : st = st' := Except.ok.inj hst'
    subst hstst
    rw [hout]
    show w ∈ dupWarnings cfg.verbose st ↔ _
    rw [hv, mem_dupWarnings_iff]
    constructor
    · rintro ⟨sym, h1, h2, h3, h4, h5⟩
      refine ⟨sym, h1, h2, h3, h4, h5, ?_, ?_⟩
      · rw [h5]
        exact chain'_sortLe strLe strLe_total _
      · intro x
        rw [h5]
        exact mem_sortLe _ _ _
    · rintro ⟨sym, h1, h2, h3, h4, h5, _, _⟩
      exact ⟨sym, h1, h2, h3, h4, h5⟩

/-- Witness for `c6_amended` at a concrete verbose run with a duplicated
symbol. -/
theorem c6_amended_witness :
    (⟨"foo", ["a.c", "b.c"]⟩ : DupWarning) ∈
        (AnalysisOutput.mk [⟨"foo", ["a.c", "b.c"]⟩]
          [ReportLine.header, ReportLine.candidate "foo" "b.c"]).warnings ↔
      ∃ sym : Symbol,
        ("foo", sym) ∈
            (Symtab.mk [("foo", ⟨"foo", some "foo", ["b.c", "a.c"], []⟩)] []
              [("foo", ["b.c", "a.c"])]).syms ∧
          sym.has_multiple_defs = true ∧ firstCharUnderscore "foo" = false ∧
          "foo" ≠ "main" ∧ ["a.c", "b.c"] = sortStrings sym.defs ∧
          List.Chain' (fun a b => strLe a b = true) ["a.c", "b.c"] ∧
          (∀ x, x ∈ ["a.c", "b.c"] ↔ x ∈ sym.defs) :=
  c6_amended ⟨true, .runs 0 "foo", pickFirst⟩ [⟨[⟨"b.c", "foo"⟩, ⟨"a.c", "foo"⟩], [], []⟩] []
    ⟨[⟨"foo", ["a.c", "b.c"]⟩], [ReportLine.header, ReportLine.candidate "foo" "b.c"]⟩
    ⟨[("foo", ⟨"foo", some "foo", ["b.c", "a.c"], []⟩)], [], [("foo", ["b.c", "a.c"])]⟩
    rfl (by decide) (by decide) ⟨"foo", ["a.c", "b.c"]⟩

/-! ## Claim C7 -/

/-- C7 counterexample: an absent demangling tool DOES abort the run — the
source calls `subprocess.Popen(['c++filt'], ...)` with no exception
handler, so the `FileNotFoundError` propagates, contradicting the claim
that demangler failure never aborts. -/
theorem c7_counterexample :
    analyze_reports ⟨false, .absent, pickFirst⟩ [⟨[⟨"a.c", "foo"⟩], [], []⟩] [] =
      .error .fileNotFound := by decide

theorem assignDemangled_ok_of_le (lines : List String) :
    ∀ (names : List String) (st : Symtab), lines.length ≤ names.length →
      ∃ st', assignDemangled st names lines = .ok st' := by
  induction lines with
  | nil => intro names st _; cases names <;> exact ⟨st, rfl⟩
  | cons l ls ih =>
    intro names st hlen
    cases names with
    | nil => simp at hlen
    | cons n ns =>
      simp only [assignDemangled]
      exact ih ns _ (by simpa using hlen)

/-- C7 amended: a demangling tool that RUNS never aborts the analysis,
whatever its exit status — the source discards the return code — provided
its output has no more lines than there are symbols (a surplus line raises
`IndexError`).  An absent tool aborts the run (see the counterexample); and
on failure the demangled names are simply whatever the partial output
yields (unset names match no header symbol), not the raw names. -/
theorem c7_amended (v : Bool) (rc : Int) (outStr : String) (pick : List String → String)
    (reports : List Report) (header_syms : List String)
    (hlen : (splitLinesStr (rstripNewlines outStr)).length ≤
      (buildSymtab reports).syms.length) :
    ∃ res, analyze_reports ⟨v, .runs rc outStr, pick⟩ reports header_syms = .ok res := by
  unfold analyze_reports
  by_cases he : (buildSymtab reports).empty = true
  · rw [if_pos he]
    exact ⟨⟨[], []⟩, rfl⟩
  · rw [if_neg he]
    have hnames : (sortStrings (keysOf (buildSymtab reports).syms)).length =
        (buildSymtab reports).syms.length := by
      unfold sortStrings keysOf
      rw [length_sortLe, List.length_map]
    rcases assignDemangled_ok_of_le (splitLinesStr (rstripNewlines outStr))
        (sortStrings (keysOf (buildSymtab reports).syms)) (buildSymtab reports)
        (by rw [hnames]; exact hlen) with ⟨st', hok⟩
    have hpop : populatedSymtab (.runs rc outStr) reports = .ok st' := by
      unfold populatedSymtab
      rw [if_neg he]
      exact hok
    simp only [hpop]
    exact ⟨_, rfl⟩

/-- Witness for `c7_amended`: the demangler exits with status 1 and empty
output; the run still completes. -/
theorem c7_amended_witness :
    ∃ res, analyze_reports ⟨false, .runs 1 "", pickFirst⟩ [⟨[⟨"a.c", "foo"⟩], [], []⟩] [] =
      .ok res :=
  c7_amended false 1 "" pickFirst [⟨[⟨"a.c", "foo"⟩], [], []⟩] [] (by decide)

/-! ## Claim C8 -/

/-- C8 counterexample: a run whose single report yields an empty symbol
table prints NOTHING — no success line with the processed-source count —
because `analyze_reports` returns before reporting when the table is
empty, contradicting the claimed "exactly one success line". -/
theorem c8_counterexample :
    analyze_reports ⟨false, .runs 0 "", pickFirst⟩ [⟨[], [], []⟩] [] =
      .ok ⟨[], []⟩ := by decide

/-- C8 amended: when the ingested reports yield an EMPTY symbol table the
analysis returns silently with no output lines at all; when the table is
nonempty and there are no candidates, it prints exactly the single success
line carrying the number of report sources.  (It fails only on demangler
collaborator behaviour, never on report data content.) -/
theorem c8_amended (cfg : AnalyzerConfig) (reports : List Report)
    (header_syms : List String) (out : AnalysisOutput)
    (h : analyze_reports cfg reports header_syms = .ok out) :
    ((buildSymtab reports).syms = [] → out = ⟨[], []⟩) ∧
      (∀ st, populatedSymtab cfg.demangler reports = .ok st →
        candidateSyms st header_syms = [] → (buildSymtab reports).syms ≠ [] →
        out.lines = [ReportLine.noViolations reports.length]) := by
  constructor
  · intro hnil
    rcases analyze_reports_ok h with ⟨hemp, hout⟩ | ⟨hemp, st, hst, hout⟩
    · exact hout
    · exfalso
      have hf : (buildSymtab reports).syms.isEmpty = false := hemp
      rw [hnil] at hf
      simp at hf
  · intro st hst hcand hne
    rcases analyze_reports_ok h with ⟨hemp, hout⟩ | ⟨hemp, st', hst', hout⟩
    · exfalso
      have ht : (buildSymtab reports).syms.isEmpty = true := hemp
      exact hne (List.isEmpty_iff.mp ht)
    · rw [hst] at hst'
      have hstst : st = st' := Except.ok.inj hst'
      subst hstst
      rw [hout]
      show reportLines cfg.pick reports.length st header_syms = _
      simp [reportLines, hcand]

/-- Witness for `c8_amended`: the self-import run has no candidates and a
nonempty table, so its output is the single success line. -/
theorem c8_amended_witness :
    (AnalysisOutput.mk [] [ReportLine.noViolations 1]).lines =
      [ReportLine.noViolations 1] :=
  (c8_amended ⟨false, .runs 0 "foo", pickFirst⟩ [⟨[⟨"a.c", "foo"⟩], [⟨"a.c", "foo"⟩], []⟩] []
      ⟨[], [ReportLine.noViolations 1]⟩ (by decide)).2
    ⟨[("foo", ⟨"foo", some "foo", ["a.c"], ["a.c"]⟩)], [("foo", ["a.c"])], [("foo", ["a.c"])]⟩
    (by decide) (by decide) (by decide)

/-! ## Claim C9 -/

/-- C9 counterexample: the header pattern is compiled with `re.I`, so the
purely uppercase identifier `FOO` in declaration-like position (`FOO;`) in
a `.h` file DOES enter the header symbol set, contradicting the claim that
only lowercase identifiers match. -/
theorem c9_counterexample :
    ("FOO" : String) ∈ index_headers (find_headers [("a.h", "FOO;")]) := by decide

theorem string_mk_data (s : String) : String.mk s.data = s := rfl

theorem takeWhile_all_append (p : Char → Bool) (l r : List Char)
    (h : ∀ x ∈ l, p x = true) : (l ++ r).takeWhile p = l ++ r.takeWhile p := by
  induction l with
  | nil => simp
  | cons c cs ih =>
    have hc : p c = true := h c (List.mem_cons_self c cs)
    simp only [List.cons_append, List.takeWhile_cons, hc, if_true]
    rw [ih fun x hx => h x (List.mem_cons_of_mem c hx)]

theorem dropWhile_all_append (p : Char → Bool) (l r : List Char)
    (h : ∀ x ∈ l, p x = true) : (l ++ r).dropWhile p = r.dropWhile p := by
  induction l with
  | nil => simp
  | cons c cs ih =>
    have hc : p c = true := h c (List.mem_cons_self c cs)
    simp only [List.cons_append, List.dropWhile_cons, hc, if_true]
    exact ih fun x hx => h x (List.mem_cons_of_mem c hx)

theorem identStart_isWordChar {x : Char} (h : isIdentStart x = true) : isWordChar x = true := by
  unfold isIdentStart at h
  unfold isWordChar
  simp only [Bool.or_eq_true, Bool.and_eq_true, decide_eq_true_eq, beq_iff_eq] at h ⊢
  tauto

theorem space_not_isWordChar {x : Char} (h : isSpaceChar x = true) : isWordChar x = false := by
  unfold isSpaceChar at h
  simp only [Bool.or_eq_true, beq_iff_eq] at h
  rcases h with ((((h | h) | h) | h) | h) | h <;> (subst h; decide)

theorem word_not_isSpaceChar {x : Char} (h : isWordChar x = true) : isSpaceChar x = false := by
  cases hx : isSpaceChar x
  · rfl
  · rw [space_not_isWordChar hx] at h
    exact Bool.noConfusion h

theorem delim_not_isWordChar {d : Char} (h : (d == '[' || d == '(' || d == ';') = true) :
    isWordChar d = false := by
  simp only [Bool.or_eq_true, beq_iff_eq] at h
  rcases h with (h | h) | h <;> (subst h; decide)

theorem delim_not_isSpaceChar {d : Char} (h : (d == '[' || d == '(' || d == ';') = true) :
    isSpaceChar d = false := by
  simp only [Bool.or_eq_true, beq_iff_eq] at h
  rcases h with (h | h) | h <;> (subst h; decide)

theorem identStart_not_delim {x : Char} (h : isIdentStart x = true) :
    (x == '[' || x == '(' || x == ';') = false := by
  cases hd : (x == '[' || x == '(' || x == ';')
  · rfl
  · simp only [Bool.or_eq_true, beq_iff_eq] at hd
    rcases hd with (h' | h') | h' <;> (subst h'; exact absurd h (by decide))

theorem takeWhile_mem_true (p : Char → Bool) : ∀ (l : List Char) (x : Char),
    x ∈ l.takeWhile p → p x = true := by
  intro l
  induction l with
  | nil => intro x hx; simp at hx
  | cons a as ih =>
    intro x hx
    by_cases hp : p a = true
    · rw [List.takeWhile_cons, if_pos hp] at hx
      rcases List.mem_cons.mp hx with rfl | hx'
      · exact hp
      · exact ih x hx'
    · rw [List.takeWhile_cons, if_neg hp] at hx
      cases hx

theorem dropWhile_head_false (p : Char → Bool) :
    ∀ (l : List Char) {x : Char} {xs : List Char}, l.dropWhile p = x :: xs → p x = false := by
  intro l
  induction l with
  | nil => intro x xs h; cases h
  | cons a as ih =>
    intro x xs h
    by_cases hp : p a = true
    · rw [List.dropWhile_cons, if_pos hp] at h
      exact ih h
    · rw [List.dropWhile_cons, if_neg hp] at h
      cases h
      simpa using hp

theorem getLast?_cons_ne (a : Char) (l : List Char) (h : l ≠ []) :
    (a :: l).getLast? = l.getLast? := by
  cases l with
  | nil => exact absurd rfl h
  | cons b bs => simp [List.getLast?_cons_cons]

theorem getLast?_append_ne (l r : List Char) (h : r ≠ []) :
    (l ++ r).getLast? = r.getLast? := by
  induction l with
  | nil => rfl
  | cons a as ih =>
    rw [List.cons_append,
      getLast?_cons_ne a (as ++ r) (fun hc => h (List.append_eq_nil.mp hc).2), ih]

theorem getLast?_some_mem : ∀ l : List Char, l ≠ [] → ∃ ℓ, l.getLast? = some ℓ ∧ ℓ ∈ l := by
  intro l
  induction l with
  | nil => intro h; exact absurd rfl h
  | cons a as ih =>
    intro _
    cases has : as with
    | nil => exact ⟨a, by simp, by simp⟩
    | cons b bs =>
      rw [has] at ih
      rcases ih (by simp) with ⟨ℓ, h1, h2⟩
      exact ⟨ℓ, by rw [getLast?_cons_ne a (b :: bs) (by simp), h1],
        List.mem_cons_of_mem a h2⟩

/-! Membership in the header symbol set from a `findall` capture. -/

theorem mem_innerFold_preserve (l : List (String × String)) :
    ∀ (syms : List String) (x : String), x ∈ syms →
      x ∈ l.foldl (fun syms pr => setInsert pr.2 (setInsert pr.1 syms)) syms := by
  induction l with
  | nil => intro syms x hx; exact hx
  | cons pr prs ih =>
    intro syms x hx
    simp only [List.foldl_cons]
    exact ih _ x (mem_setInsert_of_mem _ (mem_setInsert_of_mem _ hx))

theorem mem_innerFold_of_mem (l : List (String × String)) :
    ∀ (syms : List String) (pr : String × String), pr ∈ l →
      pr.1 ∈ l.foldl (fun syms pr => setInsert pr.2 (setInsert pr.1 syms)) syms ∧
        pr.2 ∈ l.foldl (fun syms pr => setInsert pr.2 (setInsert pr.1 syms)) syms := by
  induction l with
  | nil => intro syms pr h; cases h
  | cons q qs ih =>
    intro syms pr h
    simp only [List.foldl_cons]
    rcases List.mem_cons.mp h with rfl | h'
    · constructor
      · exact mem_innerFold_preserve qs _ _ (mem_setInsert_of_mem _ (mem_setInsert_self _ _))
      · exact mem_innerFold_preserve qs _ _ (mem_setInsert_self _ _)
    · exact ih _ pr h'

theorem mem_outerFold_preserve (headers : List (String × String)) :
    ∀ (acc : List String) (x : String), x ∈ acc →
      x ∈ headers.foldl
        (fun syms h =>
          (pyFindall h.2).foldl (fun syms pr => setInsert pr.2 (setInsert pr.1 syms)) syms)
        acc := by
  induction headers with
  | nil => intro acc x hx; exact hx
  | cons hf hfs ih =>
    intro acc x hx
    simp only [List.foldl_cons]
    exact ih _ x (mem_innerFold_preserve _ _ x hx)

theorem capture_mem_index_headers {headers : List (String × String)} {path content : String}
    {pr : String × String} (hmem : (path, content) ∈ headers)
    (hcap : pr ∈ pyFindall content) :
    pr.1 ∈ index_headers headers ∧ pr.2 ∈ index_headers headers := by
  unfold index_headers
  suffices h : ∀ (hs : List (String × String)) (acc : List String), (path, content) ∈ hs →
      pr.1 ∈ hs.foldl
          (fun syms h =>
            (pyFindall h.2).foldl (fun syms pr => setInsert pr.2 (setInsert pr.1 syms)) syms)
          acc ∧
        pr.2 ∈ hs.foldl
          (fun syms h =>
            (pyFindall h.2).foldl (fun syms pr => setInsert pr.2 (setInsert pr.1 syms)) syms)
          acc by
    exact h headers [] hmem
  intro hs
  induction hs with
  | nil => intro acc hm; cases hm
  | cons hf hfs ih =>
    intro acc hm
    simp only [List.foldl_cons]
    rcases List.mem_cons.mp hm with he | hm'
    · have h2 : hf.2 = content := by rw [← he]
      have hcap' : pr ∈ pyFindall hf.2 := by rw [h2]; exact hcap
      constructor
      · exact mem_outerFold_preserve hfs _ _ ((mem_innerFold_of_mem _ acc pr hcap').1)
      · exact mem_outerFold_preserve hfs _ _ ((mem_innerFold_of_mem _ acc pr hcap').2)
    · exact ih _ hm'

theorem mem_find_headers {files : List (String × String)} {path content : String}
    (h : (path, content) ∈ files) (hext : isHeaderExt path = true) :
    (path, content) ∈ find_headers files := by
  unfold find_headers
  exact List.mem_filter.mpr ⟨h, hext⟩

/-! Evaluation of the first alternative at the start of an eligible
declaration-like occurrence, and the fact that a match starting strictly
before such an occurrence never consumes into it. -/

theorem takeWhile_word_tail (cs ws : List Char) (d : Char) (suf : List Char)
    (hcs : ∀ x ∈ cs, isWordChar x = true) (hws : ∀ x ∈ ws, isSpaceChar x = true)
    (hd : (d == '[' || d == '(' || d == ';') = true) :
    (cs ++ ws ++ d :: suf).takeWhile isWordChar = cs ∧
      (cs ++ ws ++ d :: suf).dropWhile isWordChar = ws ++ d :: suf := by
  constructor
  · rw [List.append_assoc, takeWhile_all_append isWordChar cs (ws ++ d :: suf) hcs]
    have htail : (ws ++ d :: suf).takeWhile isWordChar = [] := by
      cases ws with
      | nil =>
        rw [List.nil_append, List.takeWhile_cons, if_neg (by simp [delim_not_isWordChar hd])]
      | cons w ws' =>
        rw [List.cons_append, List.takeWhile_cons,
          if_neg (by simp [space_not_isWordChar (hws w (List.mem_cons_self w ws'))])]
    rw [htail, List.append_nil]
  · rw [List.append_assoc, dropWhile_all_append isWordChar cs (ws ++ d :: suf) hcs]
    cases ws with
    | nil =>
      rw [List.nil_append, List.dropWhile_cons, if_neg (by simp [delim_not_isWordChar hd])]
    | cons w ws' =>
      rw [List.cons_append, List.dropWhile_cons,
        if_neg (by simp [space_not_isWordChar (hws w (List.mem_cons_self w ws'))])]

theorem dropWhile_space_tail (ws : List Char) (d : Char) (suf : List Char)
    (hws : ∀ x ∈ ws, isSpaceChar x = true)
    (hd : (d == '[' || d == '(' || d == ';') = true) :
    (ws ++ d :: suf).dropWhile isSpaceChar = d :: suf := by
  rw [dropWhile_all_append isSpaceChar ws (d :: suf) hws, List.dropWhile_cons,
    if_neg (by simp [delim_not_isSpaceChar hd])]

theorem tryBranch1_capture (c : Char) (cs ws : List Char) (d : Char) (suf : List Char)
    (hc : isIdentStart c = true) (hcs : ∀ x ∈ cs, isWordChar x = true)
    (hws : ∀ x ∈ ws, isSpaceChar x = true)
    (hd : (d == '[' || d == '(' || d == ';') = true) :
    tryBranch1 false (c :: (cs ++ ws ++ d :: suf)) = some (c :: cs, suf) := by
  have ht := takeWhile_word_tail cs ws d suf hcs hws hd
  simp only [tryBranch1]
  rw [if_neg (by simp [hc])]
  simp only [ht.1, ht.2, dropWhile_space_tail ws d suf hws hd]
  rw [if_pos hd]

theorem tryBranch1_no_overrun {prevWord : Bool} {p : Char} {ps : List Char}
    {c : Char} {cs ws : List Char} {d : Char} {suf : List Char} {tok rest₁ : List Char}
    (hlast : ∀ ℓ, (p :: ps).getLast? = some ℓ → isWordChar ℓ = false)
    (hc : isIdentStart c = true)
    (hd : (d == '[' || d == '(' || d == ';') = true)
    (hbr : tryBranch1 prevWord ((p :: ps) ++ (c :: (cs ++ ws ++ d :: suf))) =
      some (tok, rest₁)) :
    ∃ pre₁, rest₁ = pre₁ ++ (c :: (cs ++ ws ++ d :: suf)) ∧ pre₁.length < ps.length + 1 ∧
      (∀ ℓ, pre₁.getLast? = some ℓ → isWordChar ℓ = false) ∧ (∀ x ∈ pre₁, x ∈ ps) := by
  rw [List.cons_append] at hbr
  simp only [tryBranch1] at hbr
  by_cases hcond : (prevWord || !isIdentStart p) = true
  · rw [if_pos hcond] at hbr
    exact Option.noConfusion hbr
  · rw [if_neg hcond] at hbr
    have hpid : isIdentStart p = true := by
      cases hx : isIdentStart p
      · exact absurd (by rw [hx]; simp) hcond
      · rfl
    have hpw : isWordChar p = true := identStart_isWordChar hpid
    cases ht₁ : ps.dropWhile isWordChar with
    | nil =>
      exfalso
      have hps' : ps = ps.takeWhile isWordChar := by
        conv_lhs => rw [← List.takeWhile_append_dropWhile isWordChar ps]
        rw [ht₁, List.append_nil]
      have hall : ∀ x ∈ ps, isWordChar x = true := by
        intro x hx
        exact takeWhile_mem_true isWordChar ps x (hps' ▸ hx)
      rcases getLast?_some_mem (p :: ps) (by simp) with ⟨ℓ, hℓ1, hℓ2⟩
      have hl := hlast ℓ hℓ1
      rcases List.mem_cons.mp hℓ2 with rfl | hℓ3
      · rw [hpw] at hl
        exact Bool.noConfusion hl
      · rw [hall ℓ hℓ3] at hl
        exact Bool.noConfusion hl
    | cons q qs =>
      have hq : isWordChar q = false := dropWhile_head_false isWordChar ps ht₁
      have hw₁all : ∀ x ∈ ps.takeWhile isWordChar, isWordChar x = true :=
        fun x hx => takeWhile_mem_true isWordChar ps x hx
      have hsplit : ps = ps.takeWhile isWordChar ++ (q :: qs) := by
        conv_lhs => rw [← List.takeWhile_append_dropWhile isWordChar ps]
        rw [ht₁]
      have hdr : (ps ++ (c :: (cs ++ ws ++ d :: suf))).dropWhile isWordChar =
          q :: (qs ++ (c :: (cs ++ ws ++ d :: suf))) := by
        conv_lhs => rw [hsplit]
        rw [List.append_assoc, dropWhile_all_append isWordChar _ _ hw₁all, List.cons_append,
          List.dropWhile_cons, if_neg (by simp [hq])]
      simp only [hdr] at hbr
      cases ht₂ : (q :: qs).dropWhile isSpaceChar with
      | nil =>
        exfalso
        have hqs : (q :: qs) = (q :: qs).takeWhile isSpaceChar := by
          conv_lhs => rw [← List.takeWhile_append_dropWhile isSpaceChar (q :: qs)]
          rw [ht₂, List.append_nil]
        have hsall : ∀ x ∈ (q :: qs), isSpaceChar x = true := by
          intro x hx
          exact takeWhile_mem_true isSpaceChar (q :: qs) x (hqs ▸ hx)
        have hocc : (q :: (qs ++ (c :: (cs ++ ws ++ d :: suf)))).dropWhile isSpaceChar =
            c :: (cs ++ ws ++ d :: suf) := by
          have he : q :: (qs ++ (c :: (cs ++ ws ++ d :: suf))) =
              (q :: qs) ++ (c :: (cs ++ ws ++ d :: suf)) := by rw [List.cons_append]
          rw [he, dropWhile_all_append isSpaceChar _ _ hsall, List.dropWhile_cons,
            if_neg (by simp [word_not_isSpaceChar (identStart_isWordChar hc)])]
        simp only [hocc] at hbr
        rw [identStart_not_delim hc, if_neg (by simp)] at hbr
        exact Option.noConfusion hbr
      | cons r rs =>
        have hr : isSpaceChar r = false := dropWhile_head_false isSpaceChar (q :: qs) ht₂
        have hsall : ∀ x ∈ (q :: qs).takeWhile isSpaceChar, isSpaceChar x = true :=
          fun x hx => takeWhile_mem_true isSpaceChar (q :: qs) x hx
        have hsp : (q :: qs) = (q :: qs).takeWhile isSpaceChar ++ (r :: rs) := by
          conv_lhs => rw [← List.takeWhile_append_dropWhile isSpaceChar (q :: qs)]
          rw [ht₂]
        have hrest2 : (q :: (qs ++ (c :: (cs ++ ws ++ d :: suf)))).dropWhile isSpaceChar =
            r :: (rs ++ (c :: (cs ++ ws ++ d :: suf))) := by
          have he : q :: (qs ++ (c :: (cs ++ ws ++ d :: suf))) =
              ((q :: qs).takeWhile isSpaceChar ++ (r :: rs)) ++
                (c :: (cs ++ ws ++ d :: suf)) := by
            rw [← hsp, List.cons_append]
          rw [he, List.append_assoc, dropWhile_all_append isSpaceChar _ _ hsall,
            List.cons_append, List.dropWhile_cons, if_neg (by simp [hr])]
        simp only [hrest2] at hbr
        by_cases hrd : (r == '[' || r == '(' || r == ';') = true
        · rw [if_pos hrd] at hbr
          have hp2 := Option.some.inj hbr
          have hre : rest₁ = rs ++ (c :: (cs ++ ws ++ d :: suf)) :=
            (congrArg Prod.snd hp2).symm
          refine ⟨rs, hre, ?_, ?_, ?_⟩
          · have h1 := congrArg List.length hsplit
            have h2 := congrArg List.length hsp
            simp only [List.length_append, List.length_cons] at h1 h2
            omega
          · intro ℓ hℓ
            have hrs : rs ≠ [] := by
              intro hnil
              rw [hnil] at hℓ
              cases hℓ
            have hne : ps ≠ [] := by
              intro h'
              have := hsplit.symm.trans h'
              exact absurd (List.append_eq_nil.mp this).2 (by simp)
            have e1 : (p :: ps).getLast? = ps.getLast? := getLast?_cons_ne p ps hne
            have e2 : ps.getLast? = (q :: qs).getLast? := by
              conv_lhs => rw [hsplit]
              exact getLast?_append_ne _ _ (by simp)
            have e3 : (q :: qs).getLast? = (r :: rs).getLast? := by
              conv_lhs => rw [hsp]
              exact getLast?_append_ne _ _ (by simp)
            have e4 : (r :: rs).getLast? = rs.getLast? := getLast?_cons_ne r rs hrs
            exact hlast ℓ (by rw [e1, e2, e3, e4]; exact hℓ)
          · intro x hx
            rw [hsplit]
            apply List.mem_append.mpr
            right
            rw [hsp]
            exact List.mem_append.mpr (Or.inr (List.mem_cons_of_mem r hx))
        · rw [if_neg hrd] at hbr
          exact Option.noConfusion hbr

/-- Reachability of a declaration-like occurrence: the scan, arriving with
at most `preM` left before the occurrence, a word-boundary before it, and
no `#` in between (an earlier `#define` could otherwise consume it),
always emits the capture. -/
theorem scan_decl_capture :
    ∀ (fuel : Nat) (preM : List Char) (prevWord : Bool) (c : Char) (cs ws : List Char)
      (d : Char) (suf : List Char),
      preM.length < fuel →
      (preM = [] → prevWord = false) →
      (∀ ℓ, preM.getLast? = some ℓ → isWordChar ℓ = false) →
      '#' ∉ preM →
      isIdentStart c = true → (∀ x ∈ cs, isWordChar x = true) →
      (∀ x ∈ ws, isSpaceChar x = true) → (d == '[' || d == '(' || d == ';') = true →
      (String.mk (c :: cs), "") ∈
        scanAux fuel prevWord (preM ++ (c :: (cs ++ ws ++ d :: suf))) := by
  intro fuel
  induction fuel with
  | zero =>
    intro preM prevWord c cs ws d suf hlt
    exact absurd hlt (Nat.not_lt_zero _)
  | succ f ih =>
    intro preM prevWord c cs ws d suf hlt hpv hlast hhash hc hcs hws hd
    cases preM with
    | nil =>
      rw [List.nil_append, hpv rfl]
      simp only [scanAux, tryBranch1_capture c cs ws d suf hc hcs hws hd]
      exact List.mem_cons_self _ _
    | cons p ps =>
      rw [List.cons_append]
      cases hbr : tryBranch1 prevWord (p :: (ps ++ (c :: (cs ++ ws ++ d :: suf)))) with
      | some pr =>
        obtain ⟨tok, rest₁⟩ := pr
        rcases tryBranch1_no_overrun hlast hc hd (by rw [List.cons_append]; exact hbr) with
          ⟨pre₁, hre, hlen, hlast₁, hsub⟩
        simp only [scanAux, hbr]
        apply List.mem_cons_of_mem
        rw [hre]
        refine ih pre₁ false c cs ws d suf ?_ (fun _ => rfl) hlast₁ ?_ hc hcs hws hd
        · have := hlt
          simp only [List.length_cons] at this
          omega
        · intro hx
          exact hhash (List.mem_cons_of_mem p (hsub _ hx))
      | none =>
        have hp : p ≠ '#' := fun he => hhash (he ▸ List.mem_cons_self p ps)
        have hb2 : tryBranch2 (p :: (ps ++ (c :: (cs ++ ws ++ d :: suf)))) = none := by
          simp only [tryBranch2]
          rw [if_pos (by simp [hp])]
        simp only [scanAux, hbr, hb2]
        refine ih ps (isWordChar p) c cs ws d suf ?_ ?_ ?_ ?_ hc hcs hws hd
        · have := hlt
          simp only [List.length_cons] at this
          omega
        · intro hnil
          exact hlast p (by rw [hnil]; simp)
        · intro ℓ hℓ
          have hne : ps ≠ [] := by
            intro hnil
            rw [hnil] at hℓ
            cases hℓ
          exact hlast ℓ (by rw [getLast?_cons_ne p ps hne]; exact hℓ)
        · intro hx
          exact hhash (List.mem_cons_of_mem p hx)

/-- The define branch at the start of a file: the rightmost eligible token
of the directive's line (as selected by `findLastTokenAux`, which is what
the greedy `.*` backtracks to) is captured. -/
theorem scan_define_capture (body tail after : List Char) (s : Char) (tok : List Char)
    (fuel : Nat)
    (hkw : matchKeyword ['d', 'e', 'f', 'i', 'n', 'e'] (body.dropWhile isSpaceChar) =
      some (s :: tail))
    (hs : isSpaceChar s = true)
    (hft : findLastTokenAux false (tail.takeWhile (· != '\n')) none = some (tok, after)) :
    ("", String.mk tok) ∈ scanAux (fuel + 1) false ('#' :: body) := by
  have hb1 : tryBranch1 false ('#' :: body) = none := by
    simp only [tryBranch1]
    rw [if_pos (by decide)]
  have hb2 : tryBranch2 ('#' :: body) =
      some (tok, after ++ tail.dropWhile (· != '\n')) := by
    simp only [tryBranch2]
    rw [if_neg (by decide)]
    simp only [hkw]
    rw [if_pos hs]
    simp only [hft]
  simp only [scanAux, hb1, hb2]
  exact List.mem_cons_self _ _

/-- C9 amended: over `.h`/`.hpp`/`.hh` files the header index applies the
lexical pattern case-insensitively (the source compiles it with `re.I`):
any identifier of either case standing at a word boundary and followed by
optional whitespace and one of `[`, `(`, `;` enters the set, wherever it
occurs in an indexed file, provided no `#` occurs before it (an earlier
`#define` directive's greedy `.*` may otherwise consume the occurrence);
a file beginning with a `#define` directive contributes the rightmost
identifier of the directive's line; and a `#define` does NOT contribute
every identifier following it: `#define FOO(x) 1` yields exactly `x` and
the empty capture, never `FOO`. -/
theorem c9_amended :
    (∀ (files : List (String × String)) (path content : String)
        (pre cs ws suf : List Char) (c d : Char),
      (path, content) ∈ files → isHeaderExt path = true →
      content.data = pre ++ (c :: (cs ++ ws ++ d :: suf)) →
      (∀ ℓ, pre.getLast? = some ℓ → isWordChar ℓ = false) →
      '#' ∉ pre →
      isIdentStart c = true → (∀ x ∈ cs, isWordChar x = true) →
      (∀ x ∈ ws, isSpaceChar x = true) →
      (d == '[' || d == '(' || d == ';') = true →
      String.mk (c :: cs) ∈ index_headers (find_headers files)) ∧
    (∀ (files : List (String × String)) (path content : String)
        (body tail after tok : List Char) (s : Char),
      (path, content) ∈ files → isHeaderExt path = true →
      content.data = '#' :: body →
      matchKeyword ['d', 'e', 'f', 'i', 'n', 'e'] (body.dropWhile isSpaceChar) =
        some (s :: tail) →
      isSpaceChar s = true →
      findLastTokenAux false (tail.takeWhile (· != '\n')) none = some (tok, after) →
      String.mk tok ∈ index_headers (find_headers files)) ∧
    index_headers (find_headers [("a.h", "#define FOO(x) 1")]) = ["", "x"] := by
  refine ⟨?_, ?_, by decide⟩
  · intro files path content pre cs ws suf c d hmem hext hdata hlast hhash hc hcs hws hd
    have hcap : (String.mk (c :: cs), "") ∈ pyFindall content := by
      unfold pyFindall
      rw [hdata]
      refine scan_decl_capture _ pre false c cs ws d suf ?_ (fun _ => rfl) hlast hhash
        hc hcs hws hd
      simp only [List.length_append, List.length_cons]
      omega
    exact (capture_mem_index_headers (mem_find_headers hmem hext) hcap).1
  · intro files path content body tail after tok s hmem hext hdata hkw hs hft
    have hcap : ("", String.mk tok) ∈ pyFindall content := by
      unfold pyFindall
      rw [hdata]
      exact scan_define_capture body tail after s tok _ hkw hs hft
    exact (capture_mem_index_headers (mem_find_headers hmem hext) hcap).2

/-- Witness for `c9_amended`: the uppercase `FOO` standing before `[`
inside a larger header file, and the rightmost identifier `BAR` of a
`#define` line. -/
theorem c9_amended_witness :
    String.mk ('F' :: ['O', 'O']) ∈
        index_headers (find_headers [("a.h", "int x;\nchar FOO [3];\n")]) ∧
      String.mk ['B', 'A', 'R'] ∈
        index_headers (find_headers [("b.h", "#define BAR 1")]) :=
  ⟨c9_amended.1 [("a.h", "int x;\nchar FOO [3];\n")] "a.h" "int x;\nchar FOO [3];\n"
      ("int x;\nchar " : String).data ['O', 'O'] [' '] ("3];\n" : String).data 'F' '['
      (by decide) (by decide) (by decide)
      (by
        intro ℓ hℓ
        have h : (("int x;\nchar " : String).data).getLast? = some ' ' := by decide
        rw [h] at hℓ
        cases hℓ
        decide)
      (by decide) (by decide) (by decide) (by decide) (by decide),
    c9_amended.2.1 [("b.h", "#define BAR 1")] "b.h" "#define BAR 1"
      ("define BAR 1" : String).data ("BAR 1" : String).data (" 1" : String).data
      ['B', 'A', 'R'] ' '
      (by decide) (by decide) (by decide) (by decide) (by decide) (by decide)⟩

/-! ## Claim C10 -/

/-- C10: a symbol is classified as a system symbol iff at least one of its
DEFINITION origins starts with the literal prefix `/usr/` or `/lib/`; the
use origins never matter (the predicate reads only `defs`), and a system
symbol is thereby excluded from the candidate collection. -/
theorem c10_system_symbol (s : Symbol) :
    (s.is_system_symbol = true ↔
      ∃ o, o ∈ s.defs ∧ (pyStartswith o "/usr/" = true ∨ pyStartswith o "/lib/" = true)) ∧
    (∀ uses' : List String,
      (Symbol.mk s.name s.demangled_name s.defs uses').is_system_symbol =
        s.is_system_symbol) ∧
    (∀ (st : Symtab) (header_syms : List String),
      s.is_system_symbol = true → s ∉ candidateSyms st header_syms) := by
  refine ⟨?_, fun _ => rfl, ?_⟩
  · unfold Symbol.is_system_symbol
    rw [List.any_eq_true]
    constructor
    · rintro ⟨o, ho, hcond⟩
      exact ⟨o, (mem_sortLe _ _ _).mp ho, by simpa using hcond⟩
    · rintro ⟨o, ho, hcond⟩
      refine ⟨o, (mem_sortLe _ _ _).mpr ho, ?_⟩
      simpa using hcond
  · intro st header_syms hsys hmem
    rcases (mem_candidateSyms_iff s).mp hmem with ⟨_, hcond⟩
    simp only [Bool.and_eq_true, Bool.not_eq_true'] at hcond
    rw [hsys] at hcond
    exact Bool.noConfusion hcond.1.1

/-- Witness for `c10_system_symbol`: a symbol defined under `/usr/` is a
system symbol and is excluded from candidacy. -/
theorem c10_witness :
    (Symbol.mk "foo" none ["/usr/lib/x.o"] []).is_system_symbol = true ∧
    Symbol.mk "foo" none ["/usr/lib/x.o"] [] ∉
      candidateSyms ⟨[("foo", Symbol.mk "foo" none ["/usr/lib/x.o"] [])], [], []⟩ [] :=
  ⟨by decide,
    (c10_system_symbol (Symbol.mk "foo" none ["/usr/lib/x.o"] [])).2.2
      ⟨[("foo", Symbol.mk "foo" none ["/usr/lib/x.o"] [])], [], []⟩ [] (by decide)⟩

end Localizer
